import Mathlib

/-!
Verification of the state-persistence and error-notebook subsystem of the
eng-lang-tutor repository.

The development shallowly embeds the Python sources:
  - scripts/core/error_notebook.py  (class ErrorNotebookManager)
  - scripts/core/state_manager.py   (StateManager default state, load, save)
  - scripts/utils.py                (deep_merge)

Modelling conventions:
  - Python dict entries of the error notebook become the structure `Entry`;
    fields that the code reads with `dict.get(key, default)` are `Option`s and
    the default is applied at each use site, mirroring the source.
  - The state document, as seen by the notebook operations, becomes `NState`:
    the two lists the operations touch plus an opaque `other` component that
    stands for every other field of the document (used for frame conditions).
  - Python's `list.sort(key=...)` / `sorted(key=..., reverse=True)` are stable
    sorts by a total preorder on keys; the output of a stable sort under a
    total preorder is unique, so the structurally recursive stable insertion
    sort `stableSort` below is extensionally the sort the source performs.
    `reverse=True` stably sorts by the reversed comparison.
  - Python string comparison is lexicographic on Unicode code points, embedded
    as `lexLe` over `List Char` compared by `Char.toNat`.
  - `datetime.date` arithmetic is embedded by `toOrdinal`, the proleptic
    Gregorian ordinal used by CPython's `date.toordinal`; `(a - b).days` is
    the difference of ordinals.  `datetime.strptime(s, "%Y-%m-%d")` is
    embedded by `parsePyDate` (4-digit year, 1-2 digit month in 1..12,
    1-2 digit day validated against the month length, nothing else in the
    string), mirroring CPython's `_strptime` regexes plus the
    `date` constructor's range checks.
  - JSON documents (for deep_merge / load / save) become the inductive `Json`;
    objects are association lists in insertion order, matching Python dicts.
  - The file system under `state.json` is the three-case `FileState`:
    no file, an unparsable file, or a parsed top-level object.
-/

/-! ## Lexicographic comparison of strings (Python `<=` on str) -/

/-- Lexicographic less-or-equal on code points, as Python compares strings. -/
def lexLe : List Char → List Char → Bool
  | [], _ => true
  | _ :: _, [] => false
  | a :: as, b :: bs =>
    if a.toNat < b.toNat then true
    else if b.toNat < a.toNat then false
    else lexLe as bs

theorem lexLe_total : ∀ a b, lexLe a b = true ∨ lexLe b a = true := by
  intro a
  induction a with
  | nil => intro b; left; rfl
  | cons x xs ih =>
    intro b
    cases b with
    | nil => right; rfl
    | cons y ys =>
      by_cases h1 : x.toNat < y.toNat
      · left; simp [lexLe, h1]
      · by_cases h2 : y.toNat < x.toNat
        · right; simp [lexLe, h2]
        · rcases ih ys with h | h
          · left; simp [lexLe, h1, h2, h]
          · right; simp [lexLe, h1, h2, h]

theorem lexLe_trans :
    ∀ a b c, lexLe a b = true → lexLe b c = true → lexLe a c = true := by
  intro a
  induction a with
  | nil => intro b c _ _; rfl
  | cons x xs ih =>
    intro b c hab hbc
    cases b with
    | nil => simp [lexLe] at hab
    | cons y ys =>
      cases c with
      | nil => simp [lexLe] at hbc
      | cons z zs =>
        simp only [lexLe] at hab hbc ⊢
        by_cases hxy : x.toNat < y.toNat
        · by_cases hyz : y.toNat < z.toNat
          · simp [Nat.lt_trans hxy hyz]
          · by_cases hzy : z.toNat < y.toNat
            · simp [hyz, hzy] at hbc
            · have : y.toNat = z.toNat := Nat.le_antisymm (Nat.le_of_not_lt hzy) (Nat.le_of_not_lt hyz)
              simp [this ▸ hxy]
        · by_cases hyx : y.toNat < x.toNat
          · simp [hxy, hyx] at hab
          · have hxeq : x.toNat = y.toNat := Nat.le_antisymm (Nat.le_of_not_lt hyx) (Nat.le_of_not_lt hxy)
            simp only [hxy, if_false, hyx, if_false] at hab
            by_cases hyz : y.toNat < z.toNat
            · simp [hxeq ▸ hyz]
            · by_cases hzy : z.toNat < y.toNat
              · simp [hyz, hzy] at hbc
              · simp only [hyz, if_false, hzy, if_false] at hbc
                simp [hxeq ▸ hyz, hxeq ▸ hzy, ih ys zs hab hbc]

/-! ## Stable sort (Python `list.sort` / `sorted` with a key function) -/

/-- Insert `x` into `l` before the first element `y` with `le x y`; together
with `stableSort` this is the stable ascending sort by `le`. -/
def insertOrdered (le : α → α → Bool) (x : α) : List α → List α
  | [] => [x]
  | y :: ys => if le x y then x :: y :: ys else y :: insertOrdered le x ys

/-- Stable sort by the total preorder `le`; extensionally equal to Python's
stable `list.sort`, whose output a stable sort determines uniquely. -/
def stableSort (le : α → α → Bool) : List α → List α
  | [] => []
  | x :: xs => insertOrdered le x (stableSort le xs)

theorem insertOrdered_perm (le : α → α → Bool) (x : α) (l : List α) :
    List.Perm (insertOrdered le x l) (x :: l) := by
  induction l with
  | nil => exact List.Perm.refl _
  | cons y ys ih =>
    simp only [insertOrdered]
    by_cases h : le x y = true
    · simp [h]
    · simp only [h, if_false]
      exact (ih.cons y).trans (List.Perm.swap x y ys)

theorem stableSort_perm (le : α → α → Bool) (l : List α) :
    List.Perm (stableSort le l) l := by
  induction l with
  | nil => exact List.Perm.refl _
  | cons x xs ih =>
    exact (insertOrdered_perm le x (stableSort le xs)).trans (ih.cons x)

theorem mem_insertOrdered (le : α → α → Bool) (x : α) (l : List α) (z : α) :
    z ∈ insertOrdered le x l ↔ z ∈ x :: l :=
  (insertOrdered_perm le x l).mem_iff

theorem pairwise_insertOrdered (le : α → α → Bool)
    (htrans : ∀ a b c, le a b = true → le b c = true → le a c = true)
    (htotal : ∀ a b, le a b = true ∨ le b a = true)
    (x : α) (l : List α) (h : l.Pairwise (fun a b => le a b = true)) :
    (insertOrdered le x l).Pairwise (fun a b => le a b = true) := by
  induction l with
  | nil => simp [insertOrdered]
  | cons y ys ih =>
    simp only [insertOrdered]
    by_cases hxy : le x y = true
    · simp only [hxy, if_true]
      refine List.Pairwise.cons ?_ h
      intro z hz
      rcases List.mem_cons.mp hz with rfl | hz
      · exact hxy
      · exact htrans x y z hxy ((List.pairwise_cons.mp h).1 z hz)
    · simp only [hxy, if_false]
      have hyx : le y x = true := by
        rcases htotal x y with h' | h'
        · exact absurd h' hxy
        · exact h'
      refine List.Pairwise.cons ?_ (ih (List.pairwise_cons.mp h).2)
      intro z hz
      rcases List.mem_cons.mp ((mem_insertOrdered le x ys z).mp hz) with rfl | hz
      · exact hyx
      · exact (List.pairwise_cons.mp h).1 z hz

theorem pairwise_stableSort (le : α → α → Bool)
    (htrans : ∀ a b c, le a b = true → le b c = true → le a c = true)
    (htotal : ∀ a b, le a b = true ∨ le b a = true)
    (l : List α) :
    (stableSort le l).Pairwise (fun a b => le a b = true) := by
  induction l with
  | nil => simp [stableSort]
  | cons x xs ih => exact pairwise_insertOrdered le htrans htotal x _ ih

theorem stableSort_length (le : α → α → Bool) (l : List α) :
    (stableSort le l).length = l.length :=
  (stableSort_perm le l).length_eq

/-! ## The error-notebook data model (error_notebook.py) -/

/-- One entry of `error_notebook` / `error_archive`.  Fields the source reads
through `dict.get(k, default)` are `Option`s; `payload` stands for the fields
the notebook code never inspects (question, user_answer, correct_answer,
explanation, keypoint_date, question_type). -/
structure Entry where
  date : Option String
  reviewed : Option Bool
  wrong_count : Option Int
  archived_at : Option String
  archived_reason : Option String
  payload : Nat
deriving Repr, DecidableEq

/-- The state document as the notebook operations see it: the two entry lists
(absent keys modelled by `none`, as `state.get(k, [])` treats them) and an
opaque remainder `other` standing for all fields these operations never touch. -/
structure NState where
  error_notebook : Option (List Entry)
  error_archive : Option (List Entry)
  other : Nat
deriving Repr, DecidableEq

/-- Maximum size for error notebook before auto-archiving
(`ErrorNotebookManager.MAX_ERROR_NOTEBOOK_SIZE`). -/
def MAX_ERROR_NOTEBOOK_SIZE : Nat := 100

/-- The sort key `lambda x: x.get('date', '')` used by the source. -/
def dateKey (e : Entry) : List Char := (e.date.getD "").data

/-- Ascending comparison by date, for `errors.sort(key=...)`. -/
def byDateAsc (a b : Entry) : Bool := lexLe (dateKey a) (dateKey b)

/-- Descending comparison by date, for `sorted(..., reverse=True)`. -/
def byDateDesc (a b : Entry) : Bool := lexLe (dateKey b) (dateKey a)

/-- The field stamping done at the top of `add_to_error_notebook`:
`error['date'] = today; error['reviewed'] = False;
error['wrong_count'] = error.get('wrong_count', 1)`. -/
def stampError (today : String) (error : Entry) : Entry :=
  { error with
    date := some today
    reviewed := some false
    wrong_count := some (error.wrong_count.getD 1) }

/-- The archive tagging applied to the evicted oldest entry:
`oldest['archived_at'] = today; oldest['archived_reason'] = 'notebook_full'`. -/
def markNotebookFull (today : String) (e : Entry) : Entry :=
  { e with archived_at := some today, archived_reason := some "notebook_full" }

/-- `ErrorNotebookManager.add_to_error_notebook`, with `date.today()` passed
in as the string `today`. -/
def add_to_error_notebook (today : String) (state : NState) (error : Entry) : NState :=
  let error := stampError today error
  let errors := state.error_notebook.getD [] ++ [error]
  if errors.length > MAX_ERROR_NOTEBOOK_SIZE then
    match stableSort byDateAsc errors with
    | [] =>
      -- dead branch: `errors` is nonempty, so its sort is nonempty
      { state with error_notebook := some [] }
    | oldest :: rest =>
      { state with
        error_notebook := some rest
        error_archive :=
          some (state.error_archive.getD [] ++ [markNotebookFull today oldest]) }
  else
    { state with error_notebook := some errors }

/-- `e.get('reviewed', False)`. -/
def reviewedD (e : Entry) : Bool := e.reviewed.getD false

/-- `{ e with reviewed := True }`, the `correct` branch of `review_error`. -/
def setReviewed (e : Entry) : Entry := { e with reviewed := some true }

/-- `e['wrong_count'] = e.get('wrong_count', 1) + 1`, the incorrect branch. -/
def bumpWrong (e : Entry) : Entry :=
  { e with wrong_count := some (e.wrong_count.getD 1 + 1) }

/-- `ErrorNotebookManager.review_error` (index is a Python int, so `Int`). -/
def review_error (state : NState) (error_index : Int) (correct : Bool) : NState :=
  let errors := state.error_notebook.getD []
  if 0 ≤ error_index ∧ error_index < (errors.length : Int) then
    match errors[error_index.toNat]? with
    | some e =>
      { state with
        error_notebook :=
          some (errors.set error_index.toNat (if correct then setReviewed e else bumpWrong e)) }
    | none => state
  else
    state

/-- `ErrorNotebookManager.clear_reviewed_errors`. -/
def clear_reviewed_errors (state : NState) : NState :=
  { state with
    error_notebook :=
      some ((state.error_notebook.getD []).filter (fun e => !reviewedD e)) }

/-! ## Pagination and random retrieval (get_errors_page) -/

/-- The dictionary returned by `get_errors_page`.  Random mode omits
`has_prev`, hence the `Option`. -/
structure PageResult where
  total : Nat
  page : Int
  per_page : Int
  total_pages : Int
  has_more : Bool
  has_prev : Option Bool
  mode : String
  errors : List Entry
deriving Repr, DecidableEq

/-- Normalize one Python slice bound: negative bounds count from the end,
then the bound is clamped into `[0, len]`. -/
def pyBound (len : Nat) (i : Int) : Nat :=
  if i < 0 then (i + len).toNat else min i.toNat len

/-- Python's `l[a:b]` for integer bounds. -/
def pySlice (l : List α) (a b : Int) : List α :=
  (l.take (pyBound l.length b)).drop (pyBound l.length a)

/-- The month filter: `[e for e in errors if e.get('date','').startswith(month)]`,
applied only when `month` is truthy (non-`None` and non-empty). -/
def monthFilter (month : Option String) (l : List Entry) : List Entry :=
  match month with
  | some m => if m = "" then l else l.filter (fun e => m.data.isPrefixOf (dateKey e))
  | none => l

/-- `ErrorNotebookManager.get_errors_page`.  The call to `random.sample` is
the only nondeterminism in the subsystem; it enters as the function argument
`sample`, whose contract (a without-replacement draw) is assumed where a
claim needs it. -/
def get_errors_page (sample : List Entry → Nat → List Entry) (state : NState)
    (page : Int) (per_page : Int) (month : Option String) (random : Option Int) :
    PageResult :=
  let errors := state.error_notebook.getD []
  let errors := stableSort byDateDesc errors
  let errors := monthFilter month errors
  let total := errors.length
  if 0 < random.getD 0 then
    let random_count : Int := min (random.getD 0) (total : Int)
    let selected := if 0 < total then sample errors random_count.toNat else []
    { total := total
      page := 1
      per_page := random_count
      total_pages := 1
      has_more := decide (random_count < (total : Int))
      has_prev := none
      mode := "random"
      errors := selected }
  else
    let total_pages : Int :=
      if 0 < per_page then ((total : Int) + per_page - 1).fdiv per_page else 1
    let page := if 0 < total_pages then max 1 (min page total_pages) else 1
    let start := (page - 1) * per_page
    let stop := start + per_page
    { total := total
      page := page
      per_page := per_page
      total_pages := total_pages
      has_more := decide (page < total_pages)
      has_prev := some (decide (1 < page))
      mode := "paginated"
      errors := pySlice errors start stop }

/-! ## Dates (datetime.date, strptime) -/

/-- A `datetime.date` value. -/
structure Date where
  year : Nat
  month : Nat
  day : Nat
deriving Repr, DecidableEq

/-- Gregorian leap-year test, as in CPython's datetime module. -/
def isLeapYear (y : Nat) : Bool :=
  y % 4 == 0 && (y % 100 != 0 || y % 400 == 0)

/-- Days in the year before the first of month `m` (1-based), as CPython's
`_days_before_month`. -/
def daysBeforeMonth (y m : Nat) : Nat :=
  [0, 31, 59, 90, 120, 151, 181, 212, 243, 273, 304, 334].getD (m - 1) 0
    + (if 2 < m && isLeapYear y then 1 else 0)

/-- Length of month `m` in year `y`, as CPython's `_days_in_month`. -/
def daysInMonth (y m : Nat) : Nat :=
  if m == 2 then (if isLeapYear y then 29 else 28)
  else if m == 4 || m == 6 || m == 9 || m == 11 then 30
  else 31

/-- CPython's `date.toordinal`: day number with 0001-01-01 as day 1. -/
def toOrdinal (d : Date) : Nat :=
  let py := d.year - 1
  py * 365 + py / 4 - py / 100 + py / 400 + daysBeforeMonth d.year d.month + d.day

/-- Split a character list at every '-', as `"-"`-separator splitting. -/
def splitOnDash : List Char → List (List Char)
  | [] => [[]]
  | c :: rest =>
    if c = '-' then [] :: splitOnDash rest
    else
      match splitOnDash rest with
      | [] => [[c]]
      | p :: ps => (c :: p) :: ps

/-- ASCII digit test. -/
def isDigitChar (c : Char) : Bool := 48 ≤ c.toNat && c.toNat ≤ 57

/-- Numeric value of a digit string. -/
def digitsVal (cs : List Char) : Nat :=
  cs.foldl (fun acc c => acc * 10 + (c.toNat - 48)) 0

/-- `datetime.strptime(s, "%Y-%m-%d").date()`: exactly three dash-separated
digit groups (year exactly 4 digits, month and day 1 or 2 digits), month in
1..12, day in 1..days-in-month, year at least MINYEAR = 1; anything else
raises ValueError, i.e. returns `none`. -/
def parsePyDate (s : String) : Option Date :=
  match splitOnDash s.data with
  | [ys, ms, ds] =>
    if ys.length == 4 && ys.all isDigitChar
        && (ms.length == 1 || ms.length == 2) && ms.all isDigitChar
        && (ds.length == 1 || ds.length == 2) && ds.all isDigitChar then
      let y := digitsVal ys
      let m := digitsVal ms
      let d := digitsVal ds
      if 1 ≤ y && 1 ≤ m && m ≤ 12 && 1 ≤ d && d ≤ daysInMonth y m then
        some ⟨y, m, d⟩
      else none
    else none
  | _ => none

/-- Decimal digit character. -/
def digitChar (n : Nat) : Char := Char.ofNat (48 + n)

/-- Two-digit zero-padded decimal. -/
def pad2 (n : Nat) : List Char := [digitChar (n / 10 % 10), digitChar (n % 10)]

/-- Four-digit zero-padded decimal. -/
def pad4 (n : Nat) : List Char :=
  [digitChar (n / 1000 % 10), digitChar (n / 100 % 10), digitChar (n / 10 % 10),
    digitChar (n % 10)]

/-- `date.isoformat()`: `YYYY-MM-DD`. -/
def dateIso (d : Date) : String :=
  String.mk (pad4 d.year ++ '-' :: pad2 d.month ++ '-' :: pad2 d.day)

/-! ## Stale-error archival (archive_stale_errors) -/

/-- Age in days of an entry: `(today - strptime(e date)).days`, and `0` when
the date string fails to parse (the `except` branch of the source). -/
def daysOld (today : Date) (e : Entry) : Int :=
  match parsePyDate (e.date.getD "") with
  | some d => (toOrdinal today : Int) - (toOrdinal d : Int)
  | none => 0

/-- One iteration of the `for error in errors` loop of
`archive_stale_errors`, acting on the pair (remaining, archive). -/
def archiveStep (today : Date) (acc : List Entry × List Entry) (e : Entry) :
    List Entry × List Entry :=
  if reviewedD e then
    (acc.1 ++ [e], acc.2)
  else if decide (3 ≤ e.wrong_count.getD 1) && decide (30 ≤ daysOld today e) then
    (acc.1, acc.2 ++ [{ e with archived_at := some (dateIso today) }])
  else
    (acc.1 ++ [e], acc.2)

/-- `ErrorNotebookManager.archive_stale_errors`, with `date.today()` passed in
as `today`.  The `errors_archived` event append is a fire-and-forget side
effect on the log, not on the state document, and is not modelled. -/
def archive_stale_errors (today : Date) (state : NState) : NState :=
  let errors := state.error_notebook.getD []
  let res := errors.foldl (archiveStep today) ([], state.error_archive.getD [])
  { state with error_notebook := some res.1, error_archive := some res.2 }

/-- The archival condition of the sweep: unreviewed, `wrong_count >= 3`,
and at least 30 days old. -/
def staleCond (today : Date) (e : Entry) : Bool :=
  !reviewedD e && decide (3 ≤ e.wrong_count.getD 1) && decide (30 ≤ daysOld today e)

/-! ## Helper lemmas about the date comparisons -/

theorem byDateAsc_trans (a b c : Entry) :
    byDateAsc a b = true → byDateAsc b c = true → byDateAsc a c = true :=
  lexLe_trans (dateKey a) (dateKey b) (dateKey c)

theorem byDateAsc_total (a b : Entry) : byDateAsc a b = true ∨ byDateAsc b a = true :=
  lexLe_total (dateKey a) (dateKey b)

theorem byDateDesc_trans (a b c : Entry) :
    byDateDesc a b = true → byDateDesc b c = true → byDateDesc a c = true :=
  fun h1 h2 => lexLe_trans (dateKey c) (dateKey b) (dateKey a) h2 h1

theorem byDateDesc_total (a b : Entry) : byDateDesc a b = true ∨ byDateDesc b a = true :=
  lexLe_total (dateKey b) (dateKey a)

/-! ## Claim C6: stamping performed by add -/

/-- C6: `add_to_error_notebook` stamps the appended entry with
`date = today`, `reviewed = false`, and `wrong_count` defaulted to 1 when the
input entry lacks it; whenever the pre-state notebook is below the capacity
the new entry is appended at the end, and in particular adding to an empty
notebook yields exactly one entry so stamped. -/
theorem add_to_error_notebook_stamps (today : String) (state : NState) (error : Entry) :
    (stampError today error).date = some today ∧
    (stampError today error).reviewed = some false ∧
    (stampError today error).wrong_count = some (error.wrong_count.getD 1) ∧
    (error.wrong_count = none → (stampError today error).wrong_count = some 1) ∧
    ((state.error_notebook.getD []).length < MAX_ERROR_NOTEBOOK_SIZE →
      (add_to_error_notebook today state error).error_notebook =
        some (state.error_notebook.getD [] ++ [stampError today error])) ∧
    (state.error_notebook.getD [] = [] →
      (add_to_error_notebook today state error).error_notebook =
        some [stampError today error]) := by
  have hmain : (state.error_notebook.getD []).length < MAX_ERROR_NOTEBOOK_SIZE →
      (add_to_error_notebook today state error).error_notebook =
        some (state.error_notebook.getD [] ++ [stampError today error]) := by
    intro h
    simp only [add_to_error_notebook]
    rw [if_neg]
    simp only [List.length_append, List.length_singleton]
    omega
  refine ⟨rfl, rfl, rfl, ?_, hmain, ?_⟩
  · intro h; simp [stampError, h]
  · intro h
    rw [hmain (by simp [h, MAX_ERROR_NOTEBOOK_SIZE]), h]
    rfl

/-- Witness for C6: a concrete add on an empty document. -/
theorem add_to_error_notebook_stamps_witness :
    (add_to_error_notebook "2026-10-12" ⟨none, none, 0⟩
        ⟨none, none, none, none, none, 9⟩).error_notebook =
      some [⟨some "2026-10-12", some false, some 1, none, none, 9⟩] := by
  have h := (add_to_error_notebook_stamps "2026-10-12" ⟨none, none, 0⟩
      ⟨none, none, none, none, none, 9⟩).2.2.2.2.2 (by rfl)
  simpa [stampError] using h

/-! ## Claim C5: review semantics -/

/-- C5: with an in-range index, `review_error` sets `reviewed := true` on the
indexed entry when `correct` is true and increments its `wrong_count` when
`correct` is false, independently of the current `reviewed` flag; with an
out-of-range index (negative or at least the length) it returns the document
unchanged (and, being a total function, raises nothing). -/
theorem review_error_semantics (state : NState) (i : Int) (correct : Bool) :
    (0 ≤ i → i < ((state.error_notebook.getD []).length : Int) →
      ∃ e, (state.error_notebook.getD [])[i.toNat]? = some e ∧
        (review_error state i correct).error_notebook =
          some ((state.error_notebook.getD []).set i.toNat
            (if correct then setReviewed e else bumpWrong e)) ∧
        (setReviewed e).reviewed = some true ∧
        (bumpWrong e).wrong_count = some (e.wrong_count.getD 1 + 1) ∧
        (bumpWrong e).reviewed = e.reviewed ∧
        (review_error state i correct).error_archive = state.error_archive ∧
        (review_error state i correct).other = state.other) ∧
    (¬ (0 ≤ i ∧ i < ((state.error_notebook.getD []).length : Int)) →
      review_error state i correct = state) := by
  constructor
  · intro h0 h1
    have hlt : i.toNat < (state.error_notebook.getD []).length := by omega
    refine ⟨(state.error_notebook.getD [])[i.toNat], ?_, ?_, rfl, rfl, rfl, ?_, ?_⟩
    · exact List.getElem?_eq_getElem hlt
    · simp [review_error, h0, h1, List.getElem?_eq_getElem hlt]
    · simp [review_error, h0, h1, List.getElem?_eq_getElem hlt]
    · simp [review_error, h0, h1, List.getElem?_eq_getElem hlt]
  · intro h
    simp [review_error, h]

/-- Witness for C5: reviewing entry 0 of a one-entry notebook marks it
reviewed; an out-of-range review at index 999 is the identity. -/
theorem review_error_semantics_witness :
    (review_error ⟨some [⟨some "2026-01-01", some false, some 1, none, none, 0⟩], none, 3⟩
        0 true).error_notebook =
      some [⟨some "2026-01-01", some true, some 1, none, none, 0⟩] ∧
    review_error ⟨some [⟨some "2026-01-01", some false, some 1, none, none, 0⟩], none, 3⟩
        999 true =
      ⟨some [⟨some "2026-01-01", some false, some 1, none, none, 0⟩], none, 3⟩ := by
  constructor
  · obtain ⟨e, he, hset, -⟩ :=
      (review_error_semantics
        ⟨some [⟨some "2026-01-01", some false, some 1, none, none, 0⟩], none, 3⟩
        0 true).1 (by decide) (by decide)
    have he' : e = ⟨some "2026-01-01", some false, some 1, none, none, 0⟩ := by
      simpa using he.symm
    subst he'
    simpa [setReviewed] using hset
  · exact (review_error_semantics _ 999 true).2 (by decide)

/-! ## Claim C10: clear_reviewed_errors frame condition -/

/-- C10: `clear_reviewed_errors` keeps exactly the unreviewed entries of
`error_notebook` in their original relative order (a filter, hence a sublist)
and leaves `error_archive` and every other field of the document untouched;
in particular the dropped reviewed entries are not moved into the archive. -/
theorem clear_reviewed_errors_frame (state : NState) :
    (clear_reviewed_errors state).error_notebook =
      some ((state.error_notebook.getD []).filter (fun e => !reviewedD e)) ∧
    ((clear_reviewed_errors state).error_notebook.getD []).Sublist
      (state.error_notebook.getD []) ∧
    (∀ e, e ∈ (clear_reviewed_errors state).error_notebook.getD [] ↔
      e ∈ state.error_notebook.getD [] ∧ reviewedD e = false) ∧
    (clear_reviewed_errors state).error_archive = state.error_archive ∧
    (clear_reviewed_errors state).other = state.other := by
  refine ⟨rfl, ?_, ?_, rfl, rfl⟩
  · simp only [clear_reviewed_errors, Option.getD_some]
    exact List.filter_sublist _
  · intro e
    simp [clear_reviewed_errors, List.mem_filter]

/-! ## Case characterizations of add_to_error_notebook -/

theorem add_append_case (today : String) (state : NState) (error : Entry)
    (hc : ¬ MAX_ERROR_NOTEBOOK_SIZE <
      (state.error_notebook.getD [] ++ [stampError today error]).length) :
    add_to_error_notebook today state error =
      { state with
        error_notebook := some (state.error_notebook.getD [] ++ [stampError today error]) } := by
  simp only [add_to_error_notebook]
  rw [if_neg hc]

theorem add_eviction_case (today : String) (state : NState) (error : Entry)
    (hc : MAX_ERROR_NOTEBOOK_SIZE <
      (state.error_notebook.getD [] ++ [stampError today error]).length)
    (oldest : Entry) (rest : List Entry)
    (hs : stableSort byDateAsc (state.error_notebook.getD [] ++ [stampError today error])
      = oldest :: rest) :
    add_to_error_notebook today state error =
      { state with
        error_notebook := some rest
        error_archive :=
          some (state.error_archive.getD [] ++ [markNotebookFull today oldest]) } := by
  simp only [add_to_error_notebook]
  rw [if_pos hc, hs]

theorem sort_of_over_capacity (today : String) (state : NState) (error : Entry)
    (_hc : MAX_ERROR_NOTEBOOK_SIZE <
      (state.error_notebook.getD [] ++ [stampError today error]).length) :
    ∃ oldest rest,
      stableSort byDateAsc (state.error_notebook.getD [] ++ [stampError today error])
        = oldest :: rest := by
  cases hs : stableSort byDateAsc (state.error_notebook.getD [] ++ [stampError today error]) with
  | nil =>
    exfalso
    have := stableSort_length byDateAsc (state.error_notebook.getD [] ++ [stampError today error])
    rw [hs] at this
    simp only [List.length_nil, List.length_append, List.length_singleton] at this
    omega
  | cons o r => exact ⟨o, r, rfl⟩

/-! ## Claim C1: notebook capacity invariant -/

/-- C1: starting from a state whose notebook holds at most 100 entries, after
`add_to_error_notebook` the active notebook again holds at most 100 entries,
the archive grows by exactly the evicted entries (at most one), every evicted
entry is tagged `archived_reason = "notebook_full"` and is appended — hence
counted — exactly once more in the archive, and the evicted entries together
with the surviving notebook are a permutation of the old notebook plus the
newly stamped entry. -/
theorem add_capacity_invariant (today : String) (state : NState) (error : Entry)
    (hpre : (state.error_notebook.getD []).length ≤ MAX_ERROR_NOTEBOOK_SIZE) :
    ((add_to_error_notebook today state error).error_notebook.getD []).length
        ≤ MAX_ERROR_NOTEBOOK_SIZE ∧
    ∃ ev : List Entry,
      ev.length ≤ 1 ∧
      (add_to_error_notebook today state error).error_archive.getD [] =
        state.error_archive.getD [] ++ ev.map (markNotebookFull today) ∧
      List.Perm (state.error_notebook.getD [] ++ [stampError today error])
        ((add_to_error_notebook today state error).error_notebook.getD [] ++ ev) ∧
      ∀ x ∈ ev.map (markNotebookFull today),
        x.archived_reason = some "notebook_full" ∧
        ((add_to_error_notebook today state error).error_archive.getD []).count x =
          (state.error_archive.getD []).count x + 1 := by
  by_cases hc : MAX_ERROR_NOTEBOOK_SIZE <
      (state.error_notebook.getD [] ++ [stampError today error]).length
  · obtain ⟨oldest, rest, hs⟩ := sort_of_over_capacity today state error hc
    rw [add_eviction_case today state error hc oldest rest hs]
    have hlen : rest.length + 1 =
        (state.error_notebook.getD []).length + 1 := by
      have h1 := stableSort_length byDateAsc
        (state.error_notebook.getD [] ++ [stampError today error])
      rw [hs] at h1
      simp only [List.length_cons, List.length_append, List.length_singleton,
        List.length_nil] at h1
      omega
    refine ⟨?_, [oldest], by simp, by simp, ?_, ?_⟩
    · simp only [List.length_append, List.length_singleton] at hc
      simp only [Option.getD_some]
      omega
    · have hperm : List.Perm
          (state.error_notebook.getD [] ++ [stampError today error]) (oldest :: rest) :=
        hs ▸ (stableSort_perm byDateAsc _).symm
      exact hperm.trans (List.perm_append_singleton oldest rest).symm
    · intro x hx
      simp only [List.map_cons, List.map_nil, List.mem_singleton] at hx
      subst hx
      refine ⟨rfl, ?_⟩
      simp [List.count_append]
  · rw [add_append_case today state error hc]
    refine ⟨?_, [], by simp, by simp, by simp⟩
    simp only [List.length_append, List.length_singleton] at hc
    simp only [Option.getD_some, List.length_append, List.length_singleton]
    omega

/-- Witness for C1: one add on an empty document keeps the notebook within
capacity and evicts nothing. -/
theorem add_capacity_invariant_witness :
    ((add_to_error_notebook "2026-10-12" ⟨none, none, 0⟩
        ⟨none, none, none, none, none, 0⟩).error_notebook.getD []).length
      ≤ MAX_ERROR_NOTEBOOK_SIZE :=
  (add_capacity_invariant "2026-10-12" ⟨none, none, 0⟩
    ⟨none, none, none, none, none, 0⟩ (by decide)).1

/-! ## Claim C9: eviction re-sorts the surviving notebook by date -/

/-- C9: when an add overflows the capacity, the surviving notebook is the
tail of the stable date-ascending sort of the appended list — so it is left
sorted ascending by date, the prior insertion order being replaced by date
order rather than just the oldest entry being removed. -/
theorem add_eviction_leaves_sorted (today : String) (state : NState) (error : Entry)
    (hfull : MAX_ERROR_NOTEBOOK_SIZE ≤ (state.error_notebook.getD []).length) :
    ((add_to_error_notebook today state error).error_notebook.getD []).Pairwise
      (fun a b => byDateAsc a b = true) ∧
    (add_to_error_notebook today state error).error_notebook.getD [] =
      (stableSort byDateAsc
        (state.error_notebook.getD [] ++ [stampError today error])).tail ∧
    List.Perm
      (stableSort byDateAsc (state.error_notebook.getD [] ++ [stampError today error]))
      (state.error_notebook.getD [] ++ [stampError today error]) := by
  have hc : MAX_ERROR_NOTEBOOK_SIZE <
      (state.error_notebook.getD [] ++ [stampError today error]).length := by
    simp only [List.length_append, List.length_singleton]
    omega
  obtain ⟨oldest, rest, hs⟩ := sort_of_over_capacity today state error hc
  rw [add_eviction_case today state error hc oldest rest hs]
  refine ⟨?_, by rw [hs]; rfl, stableSort_perm byDateAsc _⟩
  have hp := pairwise_stableSort byDateAsc byDateAsc_trans byDateAsc_total
    (state.error_notebook.getD [] ++ [stampError today error])
  rw [hs] at hp
  exact (List.pairwise_cons.mp hp).2

/-- Witness for C9: a 100-entry notebook (capacity reached) concretely
triggers the eviction path. -/
theorem add_eviction_leaves_sorted_witness :
    ((add_to_error_notebook "2026-10-12"
        ⟨some (List.replicate 100 ⟨some "2026-01-01", none, none, none, none, 0⟩), none, 0⟩
        ⟨none, none, none, none, none, 0⟩).error_notebook.getD []).Pairwise
      (fun a b => byDateAsc a b = true) :=
  (add_eviction_leaves_sorted "2026-10-12"
    ⟨some (List.replicate 100 ⟨some "2026-01-01", none, none, none, none, 0⟩), none, 0⟩
    ⟨none, none, none, none, none, 0⟩ (by simp [MAX_ERROR_NOTEBOOK_SIZE])).1

/-! ## Claim C4: archival correctness -/

theorem archive_foldl_char (today : Date) (l : List Entry) (rem arch : List Entry) :
    l.foldl (archiveStep today) (rem, arch) =
      (rem ++ l.filter (fun e => !staleCond today e),
       arch ++ (l.filter (staleCond today)).map
         (fun e => { e with archived_at := some (dateIso today) })) := by
  induction l generalizing rem arch with
  | nil => simp
  | cons e l ih =>
    simp only [List.foldl_cons]
    by_cases hr : reviewedD e = true
    · have hstep : archiveStep today (rem, arch) e = (rem ++ [e], arch) := by
        simp [archiveStep, hr]
      have hcond : staleCond today e = false := by
        simp [staleCond, hr]
      rw [hstep, ih]
      simp [List.filter_cons, hcond]
    · have hrf : reviewedD e = false := by simpa using hr
      by_cases hv : (decide (3 ≤ e.wrong_count.getD 1)
          && decide (30 ≤ daysOld today e)) = true
      · have hstep : archiveStep today (rem, arch) e =
            (rem, arch ++ [{ e with archived_at := some (dateIso today) }]) := by
          simp [archiveStep, hrf, hv]
        have hcond : staleCond today e = true := by
          simp only [staleCond, hrf, Bool.not_false, Bool.true_and]
          exact hv
        rw [hstep, ih]
        simp [List.filter_cons, hcond]
      · have hstep : archiveStep today (rem, arch) e = (rem ++ [e], arch) := by
          simp only [archiveStep, hrf, Bool.false_eq_true, if_false, hv]
        have hcond : staleCond today e = false := by
          simp only [staleCond, hrf, Bool.not_false, Bool.true_and]
          simpa using hv
        rw [hstep, ih]
        simp [List.filter_cons, hcond]

/-- C4: `archive_stale_errors` moves to the archive, stamped with
`archived_at = today`, exactly the entries that are unreviewed, have
`wrong_count >= 3` and are at least 30 days old (`staleCond`); the notebook
keeps exactly the others in order.  Reviewed entries never satisfy the
archival condition, and neither do entries whose date string fails to parse
(their age is taken as 0).  Every other field of the document is unchanged. -/
theorem archive_stale_errors_correct (today : Date) (state : NState) :
    (archive_stale_errors today state).error_notebook =
      some ((state.error_notebook.getD []).filter (fun e => !staleCond today e)) ∧
    (archive_stale_errors today state).error_archive =
      some (state.error_archive.getD [] ++
        ((state.error_notebook.getD []).filter (staleCond today)).map
          (fun e => { e with archived_at := some (dateIso today) })) ∧
    (∀ e, reviewedD e = true → staleCond today e = false) ∧
    (∀ e, parsePyDate (e.date.getD "") = none → staleCond today e = false) ∧
    (archive_stale_errors today state).other = state.other := by
  refine ⟨?_, ?_, ?_, ?_, ?_⟩
  · simp only [archive_stale_errors, archive_foldl_char, List.nil_append]
  · simp only [archive_stale_errors, archive_foldl_char, List.nil_append]
  · intro e hr
    simp [staleCond, hr]
  · intro e hp
    have hage : daysOld today e = 0 := by simp [daysOld, hp]
    simp [staleCond, hage]
  · simp only [archive_stale_errors]

/-- Witness for C4 (for the inner implications): a concrete sweep archiving a
stale entry and keeping a reviewed one. -/
theorem archive_stale_errors_correct_witness :
    (archive_stale_errors ⟨2026, 10, 12⟩
        ⟨some [⟨some "2026-01-01", none, some 3, none, none, 0⟩,
               ⟨some "2026-01-01", some true, some 9, none, none, 1⟩], some [], 4⟩).error_notebook
      = some [⟨some "2026-01-01", some true, some 9, none, none, 1⟩] ∧
    staleCond ⟨2026, 10, 12⟩ ⟨some "2026-01-01", some true, some 9, none, none, 1⟩ = false ∧
    staleCond ⟨2026, 10, 12⟩ ⟨some "garbage", none, some 9, none, none, 2⟩ = false := by
  obtain ⟨h1, h2, h3, h4, h5⟩ := archive_stale_errors_correct ⟨2026, 10, 12⟩
    ⟨some [⟨some "2026-01-01", none, some 3, none, none, 0⟩,
           ⟨some "2026-01-01", some true, some 9, none, none, 1⟩], some [], 4⟩
  refine ⟨?_, ?_, ?_⟩
  · rw [h1]
    decide
  · exact h3 _ (by decide)
  · exact h4 _ (by decide)

/-! ## Claim C3: pagination correctness -/

/-- The fully filtered, date-descending-sorted list that `get_errors_page`
paginates: the notebook sorted by date descending, then month-filtered. -/
def filteredSorted (state : NState) (month : Option String) : List Entry :=
  monthFilter month (stableSort byDateDesc (state.error_notebook.getD []))

/-- `(total + per_page - 1) // per_page`, the page count for positive
`per_page`. -/
def totalPages (P : Int) (n : Nat) : Int := ((n : Int) + P - 1).fdiv P

theorem take_min_of_le (l : List α) (n len : Nat) (h : l.length ≤ len) :
    l.take (min n len) = l.take n := by
  rcases Nat.le_total n len with hn | hn
  · rw [Nat.min_eq_left hn]
  · rw [Nat.min_eq_right hn, List.take_of_length_le h,
      List.take_of_length_le (le_trans h hn)]

theorem drop_min_of_le (l : List α) (n len : Nat) (h : l.length ≤ len) :
    l.drop (min n len) = l.drop n := by
  rcases Nat.le_total n len with hn | hn
  · rw [Nat.min_eq_left hn]
  · rw [Nat.min_eq_right hn, List.drop_eq_nil_of_le h,
      List.drop_eq_nil_of_le (le_trans h hn)]

theorem pySlice_nonneg (l : List α) (a b : Int) (ha : 0 ≤ a) (hb : 0 ≤ b) :
    pySlice l a b = (l.take b.toNat).drop a.toNat := by
  have hna : ¬ a < 0 := not_lt.mpr ha
  have hnb : ¬ b < 0 := not_lt.mpr hb
  simp only [pySlice, pyBound, hna, hnb, if_false]
  rw [take_min_of_le l b.toNat l.length le_rfl,
    drop_min_of_le (l.take b.toNat) a.toNat l.length
      (by rw [List.length_take]; exact min_le_right _ _)]

theorem flatten_chunks (l : List α) (p k : Nat) (hk : l.length ≤ k * p) :
    ((List.range k).map (fun j => (l.drop (j * p)).take p)).flatten = l := by
  have key : ∀ m, ((List.range m).map (fun j => (l.drop (j * p)).take p)).flatten
      = l.take (m * p) := by
    intro m
    induction m with
    | zero => simp
    | succ m ih =>
      rw [List.range_succ, List.map_append, List.flatten_append, ih]
      simp only [List.map_cons, List.map_nil, List.flatten_cons, List.flatten_nil,
        List.append_nil]
      rw [Nat.succ_mul, List.take_add]
  rw [key, List.take_of_length_le (le_trans hk le_rfl)]

theorem totalPages_mul_ge (P : Int) (hP : 0 < P) (n : Nat) :
    (n : Int) ≤ totalPages P n * P := by
  have h1 : ((n : Int) + P - 1) < (((n : Int) + P - 1) / P + 1) * P :=
    Int.lt_ediv_add_one_mul_self _ hP
  have h2 : totalPages P n = ((n : Int) + P - 1) / P := by
    unfold totalPages
    exact Int.fdiv_eq_ediv _ hP.le
  rw [h2]
  nlinarith [h1]

theorem totalPages_nonneg (P : Int) (hP : 0 < P) (n : Nat) : 0 ≤ totalPages P n := by
  have h2 : totalPages P n = ((n : Int) + P - 1) / P := by
    unfold totalPages
    exact Int.fdiv_eq_ediv _ hP.le
  rw [h2]
  apply Int.ediv_nonneg _ hP.le
  have : (0 : Int) ≤ (n : Int) := Int.natCast_nonneg n
  omega

/-- C3: in paginated mode with page size `P > 0`, `get_errors_page` serves
slices of the date-descending-sorted, month-filtered list `filteredSorted`:
that list is sorted descending and is a permutation of the month filter of
the raw notebook (no duplications or omissions); every in-range page `i`
returns the slice `[(i-1)*P, i*P)` together with the metadata
`total/page/per_page/total_pages/has_more/has_prev`; the concatenation of
pages `1..totalPages` reproduces `filteredSorted` exactly; and the returned
page number is the requested one clamped into `[1, total_pages]` whenever
that interval is nonempty (with page 1 returned in the degenerate empty
case). -/
theorem get_errors_page_paginated (sample : List Entry → Nat → List Entry)
    (state : NState) (month : Option String) (P : Int) (hP : 0 < P) :
    (filteredSorted state month).Pairwise (fun a b => byDateDesc a b = true) ∧
    List.Perm (filteredSorted state month)
      (monthFilter month (state.error_notebook.getD [])) ∧
    (∀ i : Int, 1 ≤ i → i ≤ totalPages P (filteredSorted state month).length →
      (get_errors_page sample state i P month none).errors
          = pySlice (filteredSorted state month) ((i - 1) * P) (i * P) ∧
      (get_errors_page sample state i P month none).total
          = (filteredSorted state month).length ∧
      (get_errors_page sample state i P month none).page = i ∧
      (get_errors_page sample state i P month none).per_page = P ∧
      (get_errors_page sample state i P month none).total_pages
          = totalPages P (filteredSorted state month).length ∧
      (get_errors_page sample state i P month none).has_more
          = decide (i < totalPages P (filteredSorted state month).length) ∧
      (get_errors_page sample state i P month none).has_prev
          = some (decide (1 < i)) ∧
      (get_errors_page sample state i P month none).mode = "paginated") ∧
    ((List.range (totalPages P (filteredSorted state month).length).toNat).map
        (fun (j : Nat) => (get_errors_page sample state ((j : Int) + 1) P month none).errors)).flatten
      = filteredSorted state month ∧
    (∀ pg : Int,
      (0 < totalPages P (filteredSorted state month).length →
        1 ≤ (get_errors_page sample state pg P month none).page ∧
        (get_errors_page sample state pg P month none).page
          ≤ totalPages P (filteredSorted state month).length) ∧
      (totalPages P (filteredSorted state month).length = 0 →
        (get_errors_page sample state pg P month none).page = 1)) := by
  set F := filteredSorted state month with hF
  set tp := totalPages P F.length with htp
  have heval : ∀ pg : Int, get_errors_page sample state pg P month none =
      { total := F.length
        page := if 0 < tp then max 1 (min pg tp) else 1
        per_page := P
        total_pages := tp
        has_more := decide ((if 0 < tp then max 1 (min pg tp) else 1) < tp)
        has_prev := some (decide (1 < (if 0 < tp then max 1 (min pg tp) else 1)))
        mode := "paginated"
        errors := pySlice F
          (((if 0 < tp then max 1 (min pg tp) else 1) - 1) * P)
          ((((if 0 < tp then max 1 (min pg tp) else 1) - 1) * P) + P) } := by
    intro pg
    have hraw : monthFilter month (stableSort byDateDesc (state.error_notebook.getD [])) = F := by
      simp only [hF, filteredSorted]
    have htpraw : ((F.length : Int) + P - 1).fdiv P = tp := by
      simp only [htp, totalPages]
    simp only [get_errors_page, Option.getD_none]
    rw [if_neg (by omega : ¬ (0:Int) < 0)]
    simp only [hraw]
    rw [if_pos hP]
    simp only [htpraw]
  have hpage : ∀ i : Int, 1 ≤ i → i ≤ tp →
      get_errors_page sample state i P month none =
      { total := F.length
        page := i
        per_page := P
        total_pages := tp
        has_more := decide (i < tp)
        has_prev := some (decide (1 < i))
        mode := "paginated"
        errors := pySlice F ((i - 1) * P) ((i - 1) * P + P) } := by
    intro i h1 h2
    rw [heval i]
    have h0 : 0 < tp := lt_of_lt_of_le zero_lt_one (le_trans h1 h2)
    rw [if_pos h0, min_eq_left h2, max_eq_right h1]
  refine ⟨?_, ?_, ?_, ?_, ?_⟩
  · have hs := pairwise_stableSort byDateDesc byDateDesc_trans byDateDesc_total
      (state.error_notebook.getD [])
    rw [hF]
    unfold filteredSorted monthFilter
    cases month with
    | none => exact hs
    | some m =>
      by_cases hm : m = ""
      · simp only [hm, if_pos rfl]
        exact hs
      · simp only [hm, if_neg hm]
        exact List.Pairwise.sublist (List.filter_sublist _) hs
  · rw [hF]
    unfold filteredSorted monthFilter
    cases month with
    | none => exact stableSort_perm byDateDesc _
    | some m =>
      by_cases hm : m = ""
      · simp only [hm, if_pos rfl]
        exact stableSort_perm byDateDesc _
      · simp only [if_neg hm]
        exact (stableSort_perm byDateDesc _).filter _
  · intro i h1 h2
    rw [hpage i h1 h2]
    refine ⟨?_, rfl, rfl, rfl, rfl, rfl, rfl, rfl⟩
    have : (i - 1) * P + P = i * P := by ring
    rw [this]
  · have key : ∀ j : Nat, j < tp.toNat →
        (get_errors_page sample state ((j : Int) + 1) P month none).errors
          = (F.drop (j * P.toNat)).take P.toNat := by
      intro j hj
      have hj1 : (1 : Int) ≤ (j : Int) + 1 := by omega
      have hj2 : (j : Int) + 1 ≤ tp := by
        have := Int.lt_toNat.mp hj
        omega
      rw [hpage _ hj1 hj2]
      simp only
      have hs : ((j : Int) + 1 - 1) * P = (j : Int) * P := by ring
      rw [hs]
      have hcast : ((j * P.toNat : Nat) : Int) = (j : Int) * P := by
        push_cast
        rw [Int.toNat_of_nonneg hP.le]
      have hcast2 : ((j * P.toNat + P.toNat : Nat) : Int) = (j : Int) * P + P := by
        push_cast
        rw [Int.toNat_of_nonneg hP.le]
      rw [← hcast2, ← hcast,
        pySlice_nonneg _ _ _ (Int.natCast_nonneg _) (Int.natCast_nonneg _)]
      rw [Int.toNat_natCast, Int.toNat_natCast]
      rw [List.drop_take]
      congr 1
      omega
    have hlen : F.length ≤ tp.toNat * P.toNat := by
      have h1 : (F.length : Int) ≤ tp * P := totalPages_mul_ge P hP F.length
      have h2 : ((tp.toNat * P.toNat : Nat) : Int) = tp * P := by
        push_cast
        rw [Int.toNat_of_nonneg (totalPages_nonneg P hP F.length),
          Int.toNat_of_nonneg hP.le]
      omega
    calc ((List.range tp.toNat).map
            (fun (j : Nat) => (get_errors_page sample state ((j : Int) + 1) P month none).errors)).flatten
        = ((List.range tp.toNat).map (fun j => (F.drop (j * P.toNat)).take P.toNat)).flatten := by
          congr 1
          apply List.map_congr_left
          intro j hj
          exact key j (List.mem_range.mp hj)
      _ = F := flatten_chunks F P.toNat tp.toNat hlen
  · intro pg
    constructor
    · intro h0
      rw [heval pg]
      simp only [if_pos h0]
      exact ⟨le_max_left _ _, max_le h0 (min_le_right _ _)⟩
    · intro h0
      rw [heval pg]
      simp [h0]

/-- Witness for C3: concatenating the two pages of a 3-entry notebook with
page size 2 reproduces the whole sorted list. -/
theorem get_errors_page_paginated_witness :
    ((List.range (totalPages 2 (filteredSorted
        ⟨some [⟨some "2024-01-05", none, none, none, none, 0⟩,
               ⟨some "2024-01-02", some true, some 3, none, none, 1⟩,
               ⟨some "2024-01-09", none, some 2, none, none, 2⟩], some [], 7⟩ none).length).toNat).map
      (fun (j : Nat) => (get_errors_page (fun l n => l.take n)
        ⟨some [⟨some "2024-01-05", none, none, none, none, 0⟩,
               ⟨some "2024-01-02", some true, some 3, none, none, 1⟩,
               ⟨some "2024-01-09", none, some 2, none, none, 2⟩], some [], 7⟩
        ((j : Int) + 1) 2 none none).errors)).flatten
    = filteredSorted
        ⟨some [⟨some "2024-01-05", none, none, none, none, 0⟩,
               ⟨some "2024-01-02", some true, some 3, none, none, 1⟩,
               ⟨some "2024-01-09", none, some 2, none, none, 2⟩], some [], 7⟩ none :=
  (get_errors_page_paginated (fun l n => l.take n)
    ⟨some [⟨some "2024-01-05", none, none, none, none, 0⟩,
           ⟨some "2024-01-02", some true, some 3, none, none, 1⟩,
           ⟨some "2024-01-09", none, some 2, none, none, 2⟩], some [], 7⟩
    none 2 (by decide)).2.2.2.1

/-! ## Claim C7: random retrieval mode -/

/-- C7: with a positive `random` count `r`, `get_errors_page` enters random
mode: it returns `min r total` entries drawn without replacement (a
sub-permutation of the month-filtered set) via the sampling function, reports
`per_page = min r total`, `has_more = (min r total < total)` and
`mode = "random"`, and returns an empty selection rather than failing when
the filtered set is empty. -/
theorem get_errors_page_random (sample : List Entry → Nat → List Entry)
    (state : NState) (month : Option String) (pg pp : Int) (r : Int) (hr : 0 < r)
    (hsample : ∀ (l : List Entry) (n : Nat), n ≤ l.length →
      (sample l n).length = n ∧ (sample l n).Subperm l) :
    (get_errors_page sample state pg pp month (some r)).mode = "random" ∧
    (get_errors_page sample state pg pp month (some r)).per_page
        = min r ((filteredSorted state month).length : Int) ∧
    (get_errors_page sample state pg pp month (some r)).errors.length
        = (min r ((filteredSorted state month).length : Int)).toNat ∧
    (get_errors_page sample state pg pp month (some r)).errors.Subperm
        (filteredSorted state month) ∧
    (get_errors_page sample state pg pp month (some r)).has_more
        = decide (min r ((filteredSorted state month).length : Int)
            < ((filteredSorted state month).length : Int)) ∧
    ((filteredSorted state month).length = 0 →
      (get_errors_page sample state pg pp month (some r)).errors = []) := by
  have hraw : monthFilter month (stableSort byDateDesc (state.error_notebook.getD []))
      = filteredSorted state month := by
    simp only [filteredSorted]
  have heval : get_errors_page sample state pg pp month (some r) =
      { total := (filteredSorted state month).length
        page := 1
        per_page := min r ((filteredSorted state month).length : Int)
        total_pages := 1
        has_more := decide (min r ((filteredSorted state month).length : Int)
          < ((filteredSorted state month).length : Int))
        has_prev := none
        mode := "random"
        errors := if 0 < (filteredSorted state month).length then
            sample (filteredSorted state month)
              (min r ((filteredSorted state month).length : Int)).toNat
          else [] } := by
    simp only [get_errors_page, Option.getD_some]
    rw [if_pos hr]
    simp only [hraw]
  rw [heval]
  have hle : (min r ((filteredSorted state month).length : Int)).toNat
      ≤ (filteredSorted state month).length := by
    have := min_le_right r ((filteredSorted state month).length : Int)
    omega
  refine ⟨rfl, rfl, ?_, ?_, rfl, ?_⟩
  · by_cases hN : 0 < (filteredSorted state month).length
    · simp only [if_pos hN]
      exact (hsample _ _ hle).1
    · simp only [if_neg hN]
      have h0 : (filteredSorted state month).length = 0 := by omega
      simp only [List.length_nil, h0]
      omega
  · by_cases hN : 0 < (filteredSorted state month).length
    · simp only [if_pos hN]
      exact (hsample _ _ hle).2
    · simp only [if_neg hN]
      exact List.nil_subperm
  · intro h0
    rw [if_neg (by omega)]

/-- Witness for C7: a deterministic prefix-taking sampler satisfies the
without-replacement contract, and a concrete 3-entry notebook with `r = 2`
draws exactly `min 2 3` entries. -/
theorem get_errors_page_random_witness :
    (get_errors_page (fun l n => l.take n)
        ⟨some [⟨some "2024-01-05", none, none, none, none, 0⟩,
               ⟨some "2024-01-02", some true, some 3, none, none, 1⟩,
               ⟨some "2024-01-09", none, some 2, none, none, 2⟩], some [], 7⟩
        1 5 none (some 2)).mode = "random" ∧
    (get_errors_page (fun l n => l.take n)
        ⟨some [⟨some "2024-01-05", none, none, none, none, 0⟩,
               ⟨some "2024-01-02", some true, some 3, none, none, 1⟩,
               ⟨some "2024-01-09", none, some 2, none, none, 2⟩], some [], 7⟩
        1 5 none (some 2)).errors.length
      = (min 2 ((filteredSorted
          ⟨some [⟨some "2024-01-05", none, none, none, none, 0⟩,
                 ⟨some "2024-01-02", some true, some 3, none, none, 1⟩,
                 ⟨some "2024-01-09", none, some 2, none, none, 2⟩], some [], 7⟩
          none).length : Int)).toNat := by
  have h := get_errors_page_random (fun l n => l.take n)
    ⟨some [⟨some "2024-01-05", none, none, none, none, 0⟩,
           ⟨some "2024-01-02", some true, some 3, none, none, 1⟩,
           ⟨some "2024-01-09", none, some 2, none, none, 2⟩], some [], 7⟩
    none 1 5 2 (by decide)
    (by
      intro l n hn
      refine ⟨by simp [List.length_take, Nat.min_eq_left hn], ?_⟩
      exact (List.take_sublist n l).subperm)
  exact ⟨h.1, h.2.2.1⟩

/-! ## JSON documents (state_manager.py / utils.py) -/

/-- A parsed JSON value.  Objects are association lists in insertion order,
exactly as Python dicts preserve it; numbers are rationals (JSON numeric
literals round-trip exactly through `json.dump`/`json.load`). -/
inductive Json where
  | null
  | bool (b : Bool)
  | num (q : Rat)
  | str (s : String)
  | arr (elems : List Json)
  | obj (fields : List (String × Json))
deriving Repr

/-- Python dict lookup `d[k]` / `k in d` on an association list. -/
def lookupJ : List (String × Json) → String → Option Json
  | [], _ => none
  | (k', v) :: rest, k => if k' = k then some v else lookupJ rest k

/-- Python dict assignment `d[k] = v`: overwrite in place if the key exists
(keeping its position), otherwise append at the end. -/
def setKey : List (String × Json) → String → Json → List (String × Json)
  | [], k, v => [(k, v)]
  | (k', v') :: rest, k, v =>
    if k' = k then (k', v) :: rest else (k', v') :: setKey rest k v

/-- `key in d`. -/
def containsKey (l : List (String × Json)) (k : String) : Bool :=
  (lookupJ l k).isSome

/-- The key sequence of an object, in insertion order. -/
def keysOf (l : List (String × Json)) : List String := l.map Prod.fst

/-- Distinctness of keys, as holds for every dict `json.load` produces. -/
def keysNodup : List (String × Json) → Bool
  | [] => true
  | (k, _) :: rest => !containsKey rest k && keysNodup rest

mutual

/-- Well-formedness of a JSON value: every object, anywhere inside, has
pairwise distinct keys.  Every value produced by `json.load` satisfies it. -/
def jsonWF : Json → Bool
  | Json.obj kvs => keysNodup kvs && fieldsWF kvs
  | Json.arr es => elemsWF es
  | _ => true
termination_by j => sizeOf j

def fieldsWF : List (String × Json) → Bool
  | [] => true
  | (_, v) :: rest => jsonWF v && fieldsWF rest
termination_by l => sizeOf l

def elemsWF : List Json → Bool
  | [] => true
  | v :: rest => jsonWF v && elemsWF rest
termination_by l => sizeOf l

end

mutual

/-- `utils.deep_merge(base, override)`: start from a copy of `base` and fold
the items of `override` into it. -/
def deep_merge (base : List (String × Json)) : List (String × Json) → List (String × Json)
  | [] => base
  | (k, v) :: rest => deep_merge (setKey base k (mergeVal (lookupJ base k) v)) rest
termination_by ovr => sizeOf ovr

/-- The per-key decision of `deep_merge`: recurse when the key is present in
the accumulated result and both sides hold dicts, otherwise the override
value wins. -/
def mergeVal : Option Json → Json → Json
  | some (Json.obj bs), Json.obj os => Json.obj (deep_merge bs os)
  | _, v => v
termination_by _ v => sizeOf v

end

/-- The value `deep_merge` associates to a key, as a function of the two
original bindings (proved in `lookupJ_deep_merge`). -/
def mergeLookupSpec : Option Json → Option Json → Option Json
  | some (Json.obj bs), some (Json.obj os) => some (Json.obj (deep_merge bs os))
  | _, some v => some v
  | bv, none => bv

/-- `StateManager._default_state()`. -/
def default_state : List (String × Json) :=
  [("version", Json.num 2),
   ("initialized", Json.bool false),
   ("onboarding_step", Json.num 0),
   ("completion_status", Json.obj
     [("quiz_completed_date", Json.null),
      ("keypoint_view_history", Json.arr [])]),
   ("schedule", Json.obj
     [("keypoint_time", Json.str "06:45"),
      ("quiz_time", Json.str "22:45"),
      ("timezone", Json.str "Asia/Shanghai")]),
   ("user", Json.obj
     [("xp", Json.num 0),
      ("level", Json.num 1),
      ("streak", Json.num 0),
      ("streak_freeze", Json.num 0),
      ("gems", Json.num 0),
      ("badges", Json.arr [])]),
   ("preferences", Json.obj
     [("cefr_level", Json.str "B1"),
      ("oral_written_ratio", Json.num (7/10)),
      ("topics", Json.obj
        [("movies", Json.num (1/5)),
         ("news", Json.num (3/20)),
         ("gaming", Json.num (3/20)),
         ("sports", Json.num (1/10)),
         ("workplace", Json.num (1/5)),
         ("social", Json.num (1/10)),
         ("daily_life", Json.num (1/10))]),
      ("tutor_style", Json.str "humorous"),
      ("dedup_days", Json.num 14)]),
   ("progress", Json.obj
     [("total_quizzes", Json.num 0),
      ("correct_rate", Json.num 0),
      ("last_study_date", Json.null),
      ("perfect_quizzes", Json.num 0),
      ("expressions_learned", Json.num 0)]),
   ("recent_topics", Json.arr []),
   ("error_notebook", Json.arr []),
   ("error_archive", Json.arr [])]

/-- The on-disk situation of `state.json`: absent, present but unparsable
(JSONDecodeError / IOError), or parsed into a top-level object.  (A parsable
file whose top level is not an object escapes `load_state` as an uncaught
AttributeError inside `deep_merge`, outside the typed interface
`load_state : ... -> Dict`.) -/
inductive FileState where
  | missing
  | corrupt
  | content (doc : List (String × Json))

/-- `StateManager.load_state`: the default document when the file is absent
or unparsable, otherwise the parsed document deep-merged onto a fresh
default document (`_merge_with_defaults`). -/
def load_state : FileState → List (String × Json)
  | FileState.missing => default_state
  | FileState.corrupt => default_state
  | FileState.content doc => deep_merge default_state doc

/-- `StateManager.save_state`: atomically replace the file with the
serialized document; `json.dump` followed by `json.load` is the identity on
the `Json` model, so the resulting file state is `content state`. -/
def save_state (state : List (String × Json)) : FileState :=
  FileState.content state

mutual

/-- Shape containment, reading the spec's "contains every field of the
canonical default shape": wherever the default (first argument) has an
object, the document has an object holding all of its keys, recursively;
default leaves constrain nothing but presence. -/
def hasShape : Json → Json → Bool
  | Json.obj dkvs, Json.obj kvs => hasShapeFields dkvs kvs
  | Json.obj _, _ => false
  | _, _ => true
termination_by d _ => sizeOf d

def hasShapeFields : List (String × Json) → List (String × Json) → Bool
  | [], _ => true
  | (k, dv) :: rest, kvs => hasShapeAt (lookupJ kvs k) dv && hasShapeFields rest kvs
termination_by d _ => sizeOf d

def hasShapeAt : Option Json → Json → Bool
  | some w, dv => hasShape dv w
  | none, _ => false
termination_by _ d => sizeOf d + 1

end

mutual

/-- Compatibility of a document with the default shape: no key that the
default holds as an object is overridden with a non-object (recursively).
Documents merely missing fields are compatible; documents replacing a
nested object by a scalar are not. -/
def compatFields : List (String × Json) → List (String × Json) → Bool
  | [], _ => true
  | (k, bv) :: rest, okvs => compatAt bv (lookupJ okvs k) && compatFields rest okvs
termination_by b _ => sizeOf b

def compatAt : Json → Option Json → Bool
  | Json.obj bs, some (Json.obj os) => compatFields bs os
  | Json.obj _, some _ => false
  | _, some _ => true
  | _, none => true
termination_by b _ => sizeOf b + 1

end

/-! ## Association-list lemmas -/

theorem lookupJ_setKey_self (l : List (String × Json)) (k : String) (v : Json) :
    lookupJ (setKey l k v) k = some v := by
  induction l with
  | nil => simp [setKey, lookupJ]
  | cons p rest ih =>
    obtain ⟨k', v'⟩ := p
    by_cases h : k' = k
    · simp [setKey, h, lookupJ]
    · simp [setKey, h, lookupJ, ih]

theorem lookupJ_setKey_other (l : List (String × Json)) (k : String) (v : Json)
    (k₁ : String) (h : k ≠ k₁) :
    lookupJ (setKey l k v) k₁ = lookupJ l k₁ := by
  induction l with
  | nil => simp [setKey, lookupJ, h]
  | cons p rest ih =>
    obtain ⟨k', v'⟩ := p
    by_cases h' : k' = k
    · subst h'
      simp [setKey, lookupJ, h]
    · simp [setKey, h', lookupJ, ih]

theorem keysOf_setKey (l : List (String × Json)) (k : String) (v : Json) :
    keysOf (setKey l k v) =
      if containsKey l k then keysOf l else keysOf l ++ [k] := by
  induction l with
  | nil => simp [setKey, keysOf, containsKey, lookupJ]
  | cons p rest ih =>
    obtain ⟨k', v'⟩ := p
    by_cases h : k' = k
    · simp [setKey, h, keysOf, containsKey, lookupJ]
    · simp only [setKey, if_neg h, keysOf, List.map_cons,
        containsKey, lookupJ, if_neg h]
      rw [show (List.map Prod.fst (setKey rest k v)) = keysOf (setKey rest k v) from rfl,
        ih]
      simp only [containsKey, keysOf]
      by_cases hc : (lookupJ rest k).isSome
      · simp [hc]
      · simp [hc]

theorem containsKey_iff_mem (l : List (String × Json)) (k : String) :
    containsKey l k = true ↔ k ∈ keysOf l := by
  induction l with
  | nil => simp [containsKey, lookupJ, keysOf]
  | cons p rest ih =>
    obtain ⟨k', v'⟩ := p
    by_cases h : k' = k
    · simp [containsKey, lookupJ, h, keysOf]
    · simp only [containsKey, lookupJ, if_neg h, keysOf, List.map_cons, List.mem_cons]
      rw [show (lookupJ rest k).isSome = containsKey rest k from rfl]
      constructor
      · intro hc
        exact Or.inr ((ih.mp) hc)
      · intro hc
        rcases hc with hc | hc
        · exact absurd hc.symm h
        · exact ih.mpr hc

theorem lookupJ_eq_none_of_not_mem (l : List (String × Json)) (k : String)
    (h : ¬ k ∈ keysOf l) : lookupJ l k = none := by
  cases hl : lookupJ l k with
  | none => rfl
  | some v =>
    exfalso
    exact h (containsKey_iff_mem l k |>.mp (by simp [containsKey, hl]))

theorem keysNodup_iff (l : List (String × Json)) :
    keysNodup l = true ↔ (keysOf l).Nodup := by
  induction l with
  | nil => simp [keysNodup, keysOf]
  | cons p rest ih =>
    obtain ⟨k, v⟩ := p
    simp only [keysNodup, Bool.and_eq_true, Bool.not_eq_true', keysOf, List.map_cons,
      List.nodup_cons]
    constructor
    · rintro ⟨h1, h2⟩
      refine ⟨fun hm => ?_, ih.mp h2⟩
      rw [(containsKey_iff_mem rest k).mpr hm] at h1
      exact Bool.true_eq_false.mp h1
    · rintro ⟨h1, h2⟩
      refine ⟨?_, ih.mpr h2⟩
      cases hc : containsKey rest k with
      | false => rfl
      | true => exact absurd ((containsKey_iff_mem rest k).mp hc) h1

theorem mem_of_lookupJ (l : List (String × Json)) (k : String) (v : Json)
    (h : lookupJ l k = some v) : (k, v) ∈ l := by
  induction l with
  | nil => simp [lookupJ] at h
  | cons p rest ih =>
    obtain ⟨k', v'⟩ := p
    by_cases hk : k' = k
    · subst hk
      rw [show lookupJ ((k', v') :: rest) k' = some v' from by simp [lookupJ]] at h
      have hv : v' = v := Option.some.inj h
      subst hv
      exact List.mem_cons_self _ _
    · simp only [lookupJ, if_neg hk] at h
      exact List.mem_cons_of_mem _ (ih h)

theorem lookupJ_of_mem (l : List (String × Json)) (k : String) (v : Json)
    (hnd : keysNodup l = true) (h : (k, v) ∈ l) : lookupJ l k = some v := by
  induction l with
  | nil => simp at h
  | cons p rest ih =>
    obtain ⟨k', v'⟩ := p
    simp only [keysNodup, Bool.and_eq_true, Bool.not_eq_true'] at hnd
    rcases List.mem_cons.mp h with heq | hm
    · obtain ⟨hk, hv⟩ := Prod.mk.injEq .. ▸ heq
      subst hk; subst hv
      simp [lookupJ]
    · by_cases hk : k' = k
      · exfalso
        subst hk
        have : k' ∈ keysOf rest := by
          simp only [keysOf]
          exact List.mem_map.mpr ⟨(k', v), hm, rfl⟩
        rw [(containsKey_iff_mem rest k').mpr this] at hnd
        exact Bool.true_eq_false.mp hnd.1
      · simp only [lookupJ, if_neg hk]
        exact ih hnd.2 hm

theorem fieldsWF_iff (l : List (String × Json)) :
    fieldsWF l = true ↔ ∀ p ∈ l, jsonWF p.2 = true := by
  induction l with
  | nil => simp [fieldsWF]
  | cons p rest ih =>
    obtain ⟨k, v⟩ := p
    rw [show fieldsWF ((k, v) :: rest) = (jsonWF v && fieldsWF rest) from by
      simp [fieldsWF]]
    simp only [Bool.and_eq_true, ih, List.mem_cons]
    constructor
    · rintro ⟨h1, h2⟩ q hq
      rcases hq with rfl | hq
      · exact h1
      · exact h2 q hq
    · intro h
      exact ⟨h (k, v) (Or.inl rfl), fun q hq => h q (Or.inr hq)⟩

theorem jsonWF_lookup (kvs : List (String × Json)) (k : String) (v : Json)
    (h : jsonWF (Json.obj kvs) = true) (hl : lookupJ kvs k = some v) :
    jsonWF v = true := by
  rw [show jsonWF (Json.obj kvs) = (keysNodup kvs && fieldsWF kvs) from by
    simp [jsonWF]] at h
  rcases Bool.and_eq_true .. ▸ h with ⟨-, h2⟩
  exact (fieldsWF_iff kvs).mp h2 (k, v) (mem_of_lookupJ kvs k v hl)

theorem sizeOf_lookupJ (l : List (String × Json)) (k : String) (v : Json)
    (h : lookupJ l k = some v) : sizeOf v < sizeOf l := by
  induction l with
  | nil => simp [lookupJ] at h
  | cons p rest ih =>
    obtain ⟨k', v'⟩ := p
    by_cases hk : k' = k
    · simp only [lookupJ, if_pos hk, Option.some.injEq] at h
      subst h
      simp only [List.cons.sizeOf_spec, Prod.mk.sizeOf_spec]
      omega
    · simp only [lookupJ, if_neg hk] at h
      have := ih h
      simp only [List.cons.sizeOf_spec]
      omega

/-! ## Characterization of deep_merge -/

theorem mergeVal_spec (bv : Option Json) (v : Json) :
    some (mergeVal bv v) = mergeLookupSpec bv (some v) := by
  cases bv with
  | none => cases v <;> simp [mergeVal, mergeLookupSpec]
  | some u => cases u <;> cases v <;> simp [mergeVal, mergeLookupSpec]

theorem mergeLookupSpec_none_right (bv : Option Json) :
    mergeLookupSpec bv none = bv := by
  cases bv with
  | none => rfl
  | some u => cases u <;> rfl

theorem mergeLookupSpec_not_obj (bv : Option Json) (v : Json)
    (hv : ∀ os, v ≠ Json.obj os) :
    mergeLookupSpec bv (some v) = some v := by
  cases bv with
  | none => cases v <;> simp [mergeLookupSpec]
  | some u =>
    cases u <;> cases v <;> first
      | rfl
      | exact absurd rfl (hv _)

theorem deep_merge_nil (base : List (String × Json)) : deep_merge base [] = base := by
  simp [deep_merge]

theorem deep_merge_cons (base : List (String × Json)) (k : String) (v : Json)
    (rest : List (String × Json)) :
    deep_merge base ((k, v) :: rest) =
      deep_merge (setKey base k (mergeVal (lookupJ base k) v)) rest := by
  simp [deep_merge]

theorem keysNodup_cons_iff (k : String) (v : Json) (rest : List (String × Json)) :
    keysNodup ((k, v) :: rest) = true ↔
      containsKey rest k = false ∧ keysNodup rest = true := by
  simp [keysNodup]

theorem lookupJ_deep_merge :
    ∀ (ovr base : List (String × Json)), keysNodup ovr = true → ∀ k,
      lookupJ (deep_merge base ovr) k =
        mergeLookupSpec (lookupJ base k) (lookupJ ovr k) := by
  intro ovr
  induction ovr with
  | nil =>
    intro base _ k
    rw [deep_merge_nil]
    rw [show lookupJ ([] : List (String × Json)) k = none from rfl,
      mergeLookupSpec_none_right]
  | cons p rest ih =>
    obtain ⟨k₀, v₀⟩ := p
    intro base hovr k
    obtain ⟨h1, h2⟩ := (keysNodup_cons_iff k₀ v₀ rest).mp hovr
    rw [deep_merge_cons, ih _ h2 k]
    by_cases hk : k₀ = k
    · subst hk
      have hmem : ¬ k₀ ∈ keysOf rest := fun hm => by
        rw [(containsKey_iff_mem rest k₀).mpr hm] at h1
        exact Bool.true_eq_false.mp h1
      rw [lookupJ_eq_none_of_not_mem rest k₀ hmem, mergeLookupSpec_none_right,
        lookupJ_setKey_self,
        show lookupJ ((k₀, v₀) :: rest) k₀ = some v₀ from by simp [lookupJ],
        mergeVal_spec]
    · rw [lookupJ_setKey_other _ _ _ _ hk,
        show lookupJ ((k₀, v₀) :: rest) k = lookupJ rest k from by simp [lookupJ, hk]]

theorem keysOf_deep_merge :
    ∀ (ovr base : List (String × Json)), keysNodup ovr = true →
      keysOf (deep_merge base ovr) =
        keysOf base ++ (keysOf ovr).filter (fun k => !containsKey base k) := by
  intro ovr
  induction ovr with
  | nil =>
    intro base _
    rw [deep_merge_nil]
    simp [keysOf]
  | cons p rest ih =>
    obtain ⟨k₀, v₀⟩ := p
    intro base hovr
    obtain ⟨h1, h2⟩ := (keysNodup_cons_iff k₀ v₀ rest).mp hovr
    rw [deep_merge_cons, ih _ h2, keysOf_setKey]
    have hne : ∀ x ∈ keysOf rest, ¬ k₀ = x := by
      intro x hx h
      subst h
      rw [(containsKey_iff_mem rest k₀).mpr hx] at h1
      exact Bool.true_eq_false.mp h1
    have hcongr : (keysOf rest).filter
        (fun k => !containsKey (setKey base k₀ (mergeVal (lookupJ base k₀) v₀)) k)
        = (keysOf rest).filter (fun k => !containsKey base k) := by
      apply List.filter_congr
      intro x hx
      have : lookupJ (setKey base k₀ (mergeVal (lookupJ base k₀) v₀)) x = lookupJ base x :=
        lookupJ_setKey_other _ _ _ _ (hne x hx)
      simp [containsKey, this]
    by_cases hc : containsKey base k₀ = true
    · rw [if_pos hc, hcongr]
      rw [show keysOf ((k₀, v₀) :: rest) = k₀ :: keysOf rest from rfl,
        List.filter_cons]
      simp [hc]
    · rw [if_neg hc, hcongr]
      rw [show keysOf ((k₀, v₀) :: rest) = k₀ :: keysOf rest from rfl,
        List.filter_cons]
      have hc' : containsKey base k₀ = false := by
        cases h : containsKey base k₀
        · rfl
        · exact absurd h hc
      simp only [hc', Bool.not_false, if_pos]
      rw [List.append_cons]
      simp

theorem keysNodup_deep_merge (base ovr : List (String × Json))
    (hb : keysNodup base = true) (ho : keysNodup ovr = true) :
    keysNodup (deep_merge base ovr) = true := by
  rw [keysNodup_iff, keysOf_deep_merge _ _ ho]
  apply List.Nodup.append
  · exact (keysNodup_iff base).mp hb
  · exact ((keysNodup_iff ovr).mp ho).filter _
  · intro k hk1 hk2
    have hmem := List.of_mem_filter hk2
    rw [(containsKey_iff_mem base k).mpr hk1] at hmem
    simp at hmem

theorem mergeLookupSpec_cases (bv ov : Option Json) (r : Json)
    (h : mergeLookupSpec bv ov = some r) :
    (∃ bs os, bv = some (Json.obj bs) ∧ ov = some (Json.obj os) ∧
      r = Json.obj (deep_merge bs os)) ∨
    ov = some r ∨ (bv = some r ∧ ov = none) := by
  cases ov with
  | none =>
    rw [mergeLookupSpec_none_right] at h
    exact Or.inr (Or.inr ⟨h, rfl⟩)
  | some w =>
    cases bv with
    | none =>
      cases w <;> simp [mergeLookupSpec] at h <;> simp [h]
    | some u =>
      cases u <;> cases w <;> simp [mergeLookupSpec] at h <;> simp [h]

theorem jsonWF_deep_merge :
    ∀ (n : Nat) (base ovr : List (String × Json)), sizeOf base + sizeOf ovr ≤ n →
      jsonWF (Json.obj base) = true → jsonWF (Json.obj ovr) = true →
      jsonWF (Json.obj (deep_merge base ovr)) = true := by
  intro n
  induction n with
  | zero =>
    intro base ovr hle
    exfalso
    have h1 : 1 ≤ sizeOf base := by cases base <;> simp_arith
    have h2 : 1 ≤ sizeOf ovr := by cases ovr <;> simp_arith
    omega
  | succ n ih =>
    intro base ovr hle hb ho
    have hbields := (show jsonWF (Json.obj base) = (keysNodup base && fieldsWF base) from by
      simp [jsonWF]) ▸ hb
    have hofields := (show jsonWF (Json.obj ovr) = (keysNodup ovr && fieldsWF ovr) from by
      simp [jsonWF]) ▸ ho
    obtain ⟨hbn, hbf⟩ := Bool.and_eq_true .. ▸ hbields
    obtain ⟨hon, hof⟩ := Bool.and_eq_true .. ▸ hofields
    have hnd : keysNodup (deep_merge base ovr) = true := keysNodup_deep_merge _ _ hbn hon
    rw [show jsonWF (Json.obj (deep_merge base ovr))
        = (keysNodup (deep_merge base ovr) && fieldsWF (deep_merge base ovr)) from by
      simp [jsonWF], hnd, Bool.true_and]
    rw [fieldsWF_iff]
    rintro ⟨k, v⟩ hm
    have hlk : lookupJ (deep_merge base ovr) k = some v :=
      lookupJ_of_mem _ _ _ hnd hm
    rw [lookupJ_deep_merge ovr base hon k] at hlk
    rcases mergeLookupSpec_cases _ _ _ hlk with ⟨bs, os, hbv, hov, hr⟩ | hov | ⟨hbv, -⟩
    · subst hr
      have hwbs : jsonWF (Json.obj bs) = true := jsonWF_lookup _ _ _ hb hbv
      have hwos : jsonWF (Json.obj os) = true := jsonWF_lookup _ _ _ ho hov
      have hsb : sizeOf (Json.obj bs) < sizeOf base := sizeOf_lookupJ _ _ _ hbv
      have hso : sizeOf (Json.obj os) < sizeOf ovr := sizeOf_lookupJ _ _ _ hov
      have hsb' : sizeOf bs + 1 ≤ sizeOf base := by
        simp only [Json.obj.sizeOf_spec] at hsb
        omega
      have hso' : sizeOf os + 1 ≤ sizeOf ovr := by
        simp only [Json.obj.sizeOf_spec] at hso
        omega
      exact ih bs os (by omega) hwbs hwos
    · exact jsonWF_lookup _ _ _ ho hov
    · exact jsonWF_lookup _ _ _ hb hbv

/-! ## Idempotence of merging with the defaults -/

theorem assoc_ext :
    ∀ (l₁ l₂ : List (String × Json)), keysOf l₁ = keysOf l₂ →
      keysNodup l₁ = true → (∀ k, lookupJ l₁ k = lookupJ l₂ k) → l₁ = l₂ := by
  intro l₁
  induction l₁ with
  | nil =>
    intro l₂ hk _ _
    cases l₂ with
    | nil => rfl
    | cons q rest₂ => simp [keysOf] at hk
  | cons p rest ih =>
    obtain ⟨k, v⟩ := p
    intro l₂ hk hnd hl
    cases l₂ with
    | nil => simp [keysOf] at hk
    | cons q rest₂ =>
      obtain ⟨k₂, v₂⟩ := q
      have hk' : k = k₂ ∧ keysOf rest = keysOf rest₂ := by
        simpa [keysOf] using hk
      obtain ⟨rfl, hkeys⟩ := hk'
      obtain ⟨h1, h2⟩ := (keysNodup_cons_iff k v rest).mp hnd
      have hv : v = v₂ := by
        have := hl k
        simpa [lookupJ] using this
      subst hv
      have htail : rest = rest₂ := by
        apply ih rest₂ hkeys h2
        intro k'
        by_cases hkk : k = k'
        · subst hkk
          have hm : ¬ k ∈ keysOf rest := fun hm => by
            rw [(containsKey_iff_mem rest k).mpr hm] at h1
            exact Bool.false_ne_true h1.symm
          have hm₂ : ¬ k ∈ keysOf rest₂ := by
            rw [← hkeys]; exact hm
          rw [lookupJ_eq_none_of_not_mem _ _ hm, lookupJ_eq_none_of_not_mem _ _ hm₂]
        · have := hl k'
          simpa [lookupJ, hkk] using this
      rw [htail]

theorem deep_merge_self :
    ∀ (n : Nat) (l : List (String × Json)), sizeOf l ≤ n →
      jsonWF (Json.obj l) = true → deep_merge l l = l := by
  intro n
  induction n with
  | zero =>
    intro l hle
    exfalso
    have : 1 ≤ sizeOf l := by cases l <;> simp_arith
    omega
  | succ n ih =>
    intro l hle hwf
    obtain ⟨hnd, hf⟩ := Bool.and_eq_true .. ▸
      ((show jsonWF (Json.obj l) = (keysNodup l && fieldsWF l) from by simp [jsonWF]) ▸ hwf)
    apply assoc_ext
    · rw [keysOf_deep_merge _ _ hnd]
      have : (keysOf l).filter (fun k => !containsKey l k) = [] := by
        rw [List.filter_eq_nil_iff]
        intro k hk
        rw [(containsKey_iff_mem l k).mpr hk]
        simp
      rw [this, List.append_nil]
    · exact keysNodup_deep_merge _ _ hnd hnd
    · intro k
      rw [lookupJ_deep_merge _ _ hnd]
      cases hbv : lookupJ l k with
      | none => rfl
      | some u =>
        cases u with
        | obj bs =>
          have hwbs : jsonWF (Json.obj bs) = true := jsonWF_lookup _ _ _ hwf hbv
          have hs : sizeOf (Json.obj bs) < sizeOf l := sizeOf_lookupJ _ _ _ hbv
          have hs' : sizeOf bs + 1 ≤ sizeOf l := by
            simp only [Json.obj.sizeOf_spec] at hs
            omega
          rw [show mergeLookupSpec (some (Json.obj bs)) (some (Json.obj bs))
              = some (Json.obj (deep_merge bs bs)) from rfl]
          rw [ih bs (by omega) hwbs]
        | null => rfl
        | bool b => rfl
        | num q => rfl
        | str s => rfl
        | arr es => rfl

theorem deep_merge_idem :
    ∀ (n : Nat) (b o : List (String × Json)), sizeOf b + sizeOf o ≤ n →
      jsonWF (Json.obj b) = true → jsonWF (Json.obj o) = true →
      deep_merge b (deep_merge b o) = deep_merge b o := by
  intro n
  induction n with
  | zero =>
    intro b o hle
    exfalso
    have h1 : 1 ≤ sizeOf b := by cases b <;> simp_arith
    have h2 : 1 ≤ sizeOf o := by cases o <;> simp_arith
    omega
  | succ n ih =>
    intro b o hle hb ho
    obtain ⟨hbn, hbf⟩ := Bool.and_eq_true .. ▸
      ((show jsonWF (Json.obj b) = (keysNodup b && fieldsWF b) from by simp [jsonWF]) ▸ hb)
    obtain ⟨hon, hof⟩ := Bool.and_eq_true .. ▸
      ((show jsonWF (Json.obj o) = (keysNodup o && fieldsWF o) from by simp [jsonWF]) ▸ ho)
    have hmn : keysNodup (deep_merge b o) = true := keysNodup_deep_merge _ _ hbn hon
    apply assoc_ext
    · rw [keysOf_deep_merge _ _ hmn, keysOf_deep_merge _ _ hon, List.filter_append]
      have hbase : (keysOf b).filter (fun k => !containsKey b k) = [] := by
        rw [List.filter_eq_nil_iff]
        intro k hk
        rw [(containsKey_iff_mem b k).mpr hk]
        simp
      rw [hbase, List.nil_append, List.filter_filter]
      congr 1
      apply List.filter_congr
      intro x _
      cases containsKey b x <;> rfl
    · exact keysNodup_deep_merge _ _ hbn hmn
    · intro k
      rw [lookupJ_deep_merge _ _ hmn, lookupJ_deep_merge _ _ hon]
      cases hbv : lookupJ b k with
      | none =>
        cases hov : lookupJ o k with
        | none => rfl
        | some w => cases w <;> rfl
      | some u =>
        cases hov : lookupJ o k with
        | none =>
          rw [mergeLookupSpec_none_right]
          cases u with
          | obj bs =>
            have hwbs : jsonWF (Json.obj bs) = true := jsonWF_lookup _ _ _ hb hbv
            have hs : sizeOf (Json.obj bs) < sizeOf b := sizeOf_lookupJ _ _ _ hbv
            have hs' : sizeOf bs + 1 ≤ sizeOf b := by
              simp only [Json.obj.sizeOf_spec] at hs
              omega
            rw [show mergeLookupSpec (some (Json.obj bs)) (some (Json.obj bs))
                = some (Json.obj (deep_merge bs bs)) from rfl]
            rw [deep_merge_self (sizeOf bs) bs le_rfl hwbs]
          | null => rfl
          | bool bb => rfl
          | num q => rfl
          | str s => rfl
          | arr es => rfl
        | some w =>
          cases u with
          | obj bs =>
            cases w with
            | obj os =>
              have hwbs : jsonWF (Json.obj bs) = true := jsonWF_lookup _ _ _ hb hbv
              have hwos : jsonWF (Json.obj os) = true := jsonWF_lookup _ _ _ ho hov
              have hsb : sizeOf (Json.obj bs) < sizeOf b := sizeOf_lookupJ _ _ _ hbv
              have hso : sizeOf (Json.obj os) < sizeOf o := sizeOf_lookupJ _ _ _ hov
              have hsb' : sizeOf bs + 1 ≤ sizeOf b := by
                simp only [Json.obj.sizeOf_spec] at hsb
                omega
              have hso' : sizeOf os + 1 ≤ sizeOf o := by
                simp only [Json.obj.sizeOf_spec] at hso
                omega
              rw [show mergeLookupSpec (some (Json.obj bs)) (some (Json.obj os))
                  = some (Json.obj (deep_merge bs os)) from rfl]
              rw [show mergeLookupSpec (some (Json.obj bs)) (some (Json.obj (deep_merge bs os)))
                  = some (Json.obj (deep_merge bs (deep_merge bs os))) from rfl]
              rw [ih bs os (by omega) hwbs hwos]
            | null => rfl
            | bool bb => rfl
            | num q => rfl
            | str s => rfl
            | arr es => rfl
          | null => cases w <;> rfl
          | bool bb => cases w <;> rfl
          | num q => cases w <;> rfl
          | str s => cases w <;> rfl
          | arr es => cases w <;> rfl

theorem default_state_WF : jsonWF (Json.obj default_state) = true := by
  simp [jsonWF, fieldsWF, elemsWF, keysNodup, containsKey, lookupJ, default_state]

/-! ## Claim C8: save/load round trip -/

/-- C8: for every state of the store — file absent, file unparsable, or file
holding a parsed (hence duplicate-free) object — saving the document
returned by `load_state` and loading again returns the same document: the
composition load; save; load is idempotent, the first load being the one
that fills in defaults. -/
theorem load_save_load_roundtrip (fs : FileState)
    (hWF : ∀ doc, fs = FileState.content doc → jsonWF (Json.obj doc) = true) :
    load_state (save_state (load_state fs)) = load_state fs := by
  cases fs with
  | missing =>
    show deep_merge default_state default_state = default_state
    exact deep_merge_self (sizeOf default_state) default_state le_rfl default_state_WF
  | corrupt =>
    show deep_merge default_state default_state = default_state
    exact deep_merge_self (sizeOf default_state) default_state le_rfl default_state_WF
  | content doc =>
    show deep_merge default_state (deep_merge default_state doc)
        = deep_merge default_state doc
    exact deep_merge_idem (sizeOf default_state + sizeOf doc) default_state doc le_rfl
      default_state_WF (hWF doc rfl)

/-- Witness for C8: the round trip on a concrete partial state file, and on
the missing-file store. -/
theorem load_save_load_roundtrip_witness :
    load_state (save_state (load_state
        (FileState.content [("user", Json.obj [("xp", Json.num 42)])])))
      = load_state (FileState.content [("user", Json.obj [("xp", Json.num 42)])]) ∧
    load_state (save_state (load_state FileState.missing))
      = load_state FileState.missing := by
  constructor
  · apply load_save_load_roundtrip
    intro doc h
    cases h
    simp [jsonWF, fieldsWF, elemsWF, keysNodup, containsKey, lookupJ]
  · apply load_save_load_roundtrip
    intro doc h
    cases h

/-! ## Claim C2: default-merge completeness -/

theorem hasShapeFields_iff (d kvs : List (String × Json)) :
    hasShapeFields d kvs = true ↔
      ∀ p ∈ d, hasShapeAt (lookupJ kvs p.1) p.2 = true := by
  induction d with
  | nil => simp [hasShapeFields]
  | cons p rest ih =>
    obtain ⟨k, dv⟩ := p
    rw [show hasShapeFields ((k, dv) :: rest) kvs
        = (hasShapeAt (lookupJ kvs k) dv && hasShapeFields rest kvs) from by
      simp [hasShapeFields]]
    simp only [Bool.and_eq_true, ih, List.mem_cons]
    constructor
    · rintro ⟨h1, h2⟩ q hq
      rcases hq with rfl | hq
      · exact h1
      · exact h2 q hq
    · intro h
      exact ⟨h (k, dv) (Or.inl rfl), fun q hq => h q (Or.inr hq)⟩

theorem compatFields_iff (b o : List (String × Json)) :
    compatFields b o = true ↔ ∀ p ∈ b, compatAt p.2 (lookupJ o p.1) = true := by
  induction b with
  | nil => simp [compatFields]
  | cons p rest ih =>
    obtain ⟨k, bv⟩ := p
    rw [show compatFields ((k, bv) :: rest) o
        = (compatAt bv (lookupJ o k) && compatFields rest o) from by
      simp [compatFields]]
    simp only [Bool.and_eq_true, ih, List.mem_cons]
    constructor
    · rintro ⟨h1, h2⟩ q hq
      rcases hq with rfl | hq
      · exact h1
      · exact h2 q hq
    · intro h
      exact ⟨h (k, bv) (Or.inl rfl), fun q hq => h q (Or.inr hq)⟩

theorem hasShape_not_obj (dv w : Json) (h : ∀ ds, dv ≠ Json.obj ds) :
    hasShape dv w = true := by
  cases dv with
  | obj ds => exact absurd rfl (h ds)
  | null => cases w <;> simp [hasShape]
  | bool b => cases w <;> simp [hasShape]
  | num q => cases w <;> simp [hasShape]
  | str s => cases w <;> simp [hasShape]
  | arr es => cases w <;> simp [hasShape]

theorem hasShape_refl :
    ∀ (n : Nat) (x : Json), sizeOf x ≤ n → jsonWF x = true → hasShape x x = true := by
  intro n
  induction n with
  | zero =>
    intro x hle
    exfalso
    have : 1 ≤ sizeOf x := by cases x <;> simp_arith
    omega
  | succ n ih =>
    intro x hle hwf
    cases x with
    | obj kvs =>
      obtain ⟨hnd, hf⟩ := Bool.and_eq_true .. ▸
        ((show jsonWF (Json.obj kvs) = (keysNodup kvs && fieldsWF kvs) from by
          simp [jsonWF]) ▸ hwf)
      rw [show hasShape (Json.obj kvs) (Json.obj kvs) = hasShapeFields kvs kvs from by
        simp [hasShape]]
      rw [hasShapeFields_iff]
      rintro ⟨k, dv⟩ hm
      have hlk : lookupJ kvs k = some dv := lookupJ_of_mem _ _ _ hnd hm
      rw [hlk]
      rw [show hasShapeAt (some dv) dv = hasShape dv dv from by simp [hasShapeAt]]
      have hs : sizeOf dv < sizeOf kvs := sizeOf_lookupJ _ _ _ hlk
      have hs2 : sizeOf kvs < sizeOf (Json.obj kvs) := by
        simp only [Json.obj.sizeOf_spec]
        omega
      exact ih dv (by omega) ((fieldsWF_iff kvs).mp hf (k, dv) hm)
    | null => simp [hasShape]
    | bool b => simp [hasShape]
    | num q => simp [hasShape]
    | str s => simp [hasShape]
    | arr es => simp [hasShape]

theorem mergeLookupSpec_bv_not_obj (u ov : Json) (h : ∀ bs, u ≠ Json.obj bs) :
    mergeLookupSpec (some u) (some ov) = some ov := by
  cases u <;> cases ov <;> first
    | rfl
    | exact absurd rfl (h _)

theorem hasShapeFields_deep_merge :
    ∀ (n : Nat) (b o : List (String × Json)), sizeOf b + sizeOf o ≤ n →
      jsonWF (Json.obj b) = true → jsonWF (Json.obj o) = true →
      compatFields b o = true →
      hasShapeFields b (deep_merge b o) = true := by
  intro n
  induction n with
  | zero =>
    intro b o hle
    exfalso
    have h1 : 1 ≤ sizeOf b := by cases b <;> simp_arith
    have h2 : 1 ≤ sizeOf o := by cases o <;> simp_arith
    omega
  | succ n ih =>
    intro b o hle hb ho hc
    obtain ⟨hbn, hbf⟩ := Bool.and_eq_true .. ▸
      ((show jsonWF (Json.obj b) = (keysNodup b && fieldsWF b) from by simp [jsonWF]) ▸ hb)
    obtain ⟨hon, hof⟩ := Bool.and_eq_true .. ▸
      ((show jsonWF (Json.obj o) = (keysNodup o && fieldsWF o) from by simp [jsonWF]) ▸ ho)
    rw [hasShapeFields_iff]
    rintro ⟨k, dv⟩ hm
    have hlk : lookupJ b k = some dv := lookupJ_of_mem _ _ _ hbn hm
    rw [lookupJ_deep_merge _ _ hon k, hlk]
    have hcompat := (compatFields_iff b o).mp hc (k, dv) hm
    cases hov : lookupJ o k with
    | none =>
      rw [mergeLookupSpec_none_right,
        show hasShapeAt (some dv) dv = hasShape dv dv from by simp [hasShapeAt]]
      have hs : sizeOf dv < sizeOf b := sizeOf_lookupJ _ _ _ hlk
      exact hasShape_refl (sizeOf dv) dv le_rfl ((fieldsWF_iff b).mp hbf (k, dv) hm)
    | some w =>
      cases dv with
      | obj dvs =>
        rw [hov] at hcompat
        cases w with
        | obj os =>
          have hcf : compatFields dvs os = true := by
            rw [show compatAt (Json.obj dvs) (some (Json.obj os)) = compatFields dvs os from by
              simp [compatAt]] at hcompat
            exact hcompat
          rw [show mergeLookupSpec (some (Json.obj dvs)) (some (Json.obj os))
              = some (Json.obj (deep_merge dvs os)) from rfl]
          rw [show hasShapeAt (some (Json.obj (deep_merge dvs os))) (Json.obj dvs)
              = hasShapeFields dvs (deep_merge dvs os) from by
            simp [hasShapeAt, hasShape]]
          have hwdvs : jsonWF (Json.obj dvs) = true :=
            (fieldsWF_iff b).mp hbf (k, Json.obj dvs) hm
          have hwos : jsonWF (Json.obj os) = true := jsonWF_lookup _ _ _ ho hov
          have hsb : sizeOf (Json.obj dvs) < sizeOf b := sizeOf_lookupJ _ _ _ hlk
          have hso : sizeOf (Json.obj os) < sizeOf o := sizeOf_lookupJ _ _ _ hov
          have hsb' : sizeOf dvs + 1 ≤ sizeOf b := by
            simp only [Json.obj.sizeOf_spec] at hsb
            omega
          have hso' : sizeOf os + 1 ≤ sizeOf o := by
            simp only [Json.obj.sizeOf_spec] at hso
            omega
          exact ih dvs os (by omega) hwdvs hwos hcf
        | null => simp [compatAt] at hcompat
        | bool bb => simp [compatAt] at hcompat
        | num q => simp [compatAt] at hcompat
        | str s => simp [compatAt] at hcompat
        | arr es => simp [compatAt] at hcompat
      | null =>
        rw [mergeLookupSpec_bv_not_obj _ w (by intro bs h; cases h)]
        rw [show hasShapeAt (some w) Json.null = hasShape Json.null w from by
          simp [hasShapeAt]]
        exact hasShape_not_obj _ _ (by intro ds h; cases h)
      | bool bb =>
        rw [mergeLookupSpec_bv_not_obj _ w (by intro bs h; cases h)]
        rw [show hasShapeAt (some w) (Json.bool bb) = hasShape (Json.bool bb) w from by
          simp [hasShapeAt]]
        exact hasShape_not_obj _ _ (by intro ds h; cases h)
      | num q =>
        rw [mergeLookupSpec_bv_not_obj _ w (by intro bs h; cases h)]
        rw [show hasShapeAt (some w) (Json.num q) = hasShape (Json.num q) w from by
          simp [hasShapeAt]]
        exact hasShape_not_obj _ _ (by intro ds h; cases h)
      | str s =>
        rw [mergeLookupSpec_bv_not_obj _ w (by intro bs h; cases h)]
        rw [show hasShapeAt (some w) (Json.str s) = hasShape (Json.str s) w from by
          simp [hasShapeAt]]
        exact hasShape_not_obj _ _ (by intro ds h; cases h)
      | arr es =>
        rw [mergeLookupSpec_bv_not_obj _ w (by intro bs h; cases h)]
        rw [show hasShapeAt (some w) (Json.arr es) = hasShape (Json.arr es) w from by
          simp [hasShapeAt]]
        exact hasShape_not_obj _ _ (by intro ds h; cases h)

/-- C2 counterexample: the parsable document `{"user": 5}` — which overrides
the default's nested object `user` with a scalar — loads to a document that
does not contain every field of the canonical default shape (`user.xp` etc.
are gone), refuting the claim as stated for arbitrary parsable documents. -/
theorem load_state_shape_counterexample :
    jsonWF (Json.obj [("user", Json.num 5)]) = true ∧
    hasShapeFields default_state
      (load_state (FileState.content [("user", Json.num 5)])) = false := by
  constructor
  · simp [jsonWF, fieldsWF, elemsWF, keysNodup, containsKey, lookupJ]
  · simp [load_state, default_state, deep_merge, mergeVal, lookupJ, setKey,
      hasShapeFields, hasShapeAt, hasShape]

/-- C2 (amended): for every parsable state document that is
shape-compatible with the default — no key held as an object by the default
is overridden with a non-object, recursively (`compatFields`) — `load_state`
returns a document containing every field of the canonical default shape
(recursively); top-level fields absent from the file are filled from the
default, and arrays and leaf scalars present in the file fully override the
default's values; and at every nesting level the merge fills
base-side-absent keys from the base, lets non-object override values win,
and recurses into object/object pairs. -/
theorem load_state_default_merge (doc : List (String × Json))
    (hWF : jsonWF (Json.obj doc) = true)
    (hcompat : compatFields default_state doc = true) :
    hasShapeFields default_state (load_state (FileState.content doc)) = true ∧
    (∀ k, lookupJ doc k = none →
      lookupJ (load_state (FileState.content doc)) k = lookupJ default_state k) ∧
    (∀ k v, lookupJ doc k = some v → (∀ os, v ≠ Json.obj os) →
      lookupJ (load_state (FileState.content doc)) k = some v) ∧
    (∀ (b o : List (String × Json)), keysNodup o = true → ∀ k,
      (lookupJ o k = none → lookupJ (deep_merge b o) k = lookupJ b k) ∧
      (∀ v, lookupJ o k = some v → (∀ os, v ≠ Json.obj os) →
        lookupJ (deep_merge b o) k = some v) ∧
      (∀ bs os, lookupJ b k = some (Json.obj bs) → lookupJ o k = some (Json.obj os) →
        lookupJ (deep_merge b o) k = some (Json.obj (deep_merge bs os)))) := by
  have hdn : keysNodup doc = true :=
    (Bool.and_eq_true .. ▸
      ((show jsonWF (Json.obj doc) = (keysNodup doc && fieldsWF doc) from by
        simp [jsonWF]) ▸ hWF)).1
  refine ⟨?_, ?_, ?_, ?_⟩
  · exact hasShapeFields_deep_merge (sizeOf default_state + sizeOf doc) _ _ le_rfl
      default_state_WF hWF hcompat
  · intro k hk
    show lookupJ (deep_merge default_state doc) k = _
    rw [lookupJ_deep_merge _ _ hdn, hk, mergeLookupSpec_none_right]
  · intro k v hk hv
    show lookupJ (deep_merge default_state doc) k = some v
    rw [lookupJ_deep_merge _ _ hdn, hk, mergeLookupSpec_not_obj _ _ hv]
  · intro b o hno k
    refine ⟨?_, ?_, ?_⟩
    · intro hk
      rw [lookupJ_deep_merge _ _ hno, hk, mergeLookupSpec_none_right]
    · intro v hk hv
      rw [lookupJ_deep_merge _ _ hno, hk, mergeLookupSpec_not_obj _ _ hv]
    · intro bs os hb' ho'
      rw [lookupJ_deep_merge _ _ hno, hb', ho']
      rfl

/-- Witness for the amended C2: a partial preferences-only document is
compatible with the default shape and loads to a fully shaped document. -/
theorem load_state_default_merge_witness :
    hasShapeFields default_state
      (load_state (FileState.content
        [("preferences", Json.obj [("cefr_level", Json.str "C1")])])) = true :=
  (load_state_default_merge
    [("preferences", Json.obj [("cefr_level", Json.str "C1")])]
    (by simp [jsonWF, fieldsWF, elemsWF, keysNodup, containsKey, lookupJ])
    (by simp [compatFields, compatAt, lookupJ, default_state])).1
